import Mathlib

/-!
# Verification of the midbel/ldap client library

Shallow embedding, in Lean 4, of the parts of the `midbel/ldap` Go
repository that the specification claims talk about:

* the LDAP result taxonomy (`ldap.go`);
* the raw-message decode layer with unsolicited-notification handling
  (`client.go`, `rawMessage.Decode`);
* the search response dispatch loop (`client.go`, `executeSearch`);
* the message-id counter of the client (`client.go`);
* the transaction commit/rollback state handling (`client.go`);
* the Compare result mapping (`client.go`, `Compare`);
* the filter algebra and the RFC 4515 filter parser (`filter.go`);
* the DN exploder (`dn.go`);
* the LDIF change reader (`parseAdd` / `parseChange`).

Go integers, bytes and runes are modelled with `Nat` / `Int` / `Char`,
with explicit `% 2^32` where unsigned overflow matters.  Fallible Go
code returns `Option` / `Except`.  Loops whose termination is not
structural take an explicit fuel argument; `none` covers both a Go
error return and divergence of the original loop.
-/

namespace LdapSpec

/-! ## Result taxonomy (ldap.go) -/

/-- LDAP result codes used by the claims (constants from `ldap.go`). -/
def Success : Int := 0
def CompareFalse : Int := 5
def CompareTrue : Int := 6
def ReferralCode : Int := 10
def SaslBindInProgress : Int := 14
def UnwillingToPerform : Int := 53

/-- `Result` from `ldap.go` (the BER identifier field is irrelevant to the
claims and is omitted; it carries no observable data for them). -/
structure LResult where
  code : Int
  name : String
  diagnostic : String
  referral : List String := []
deriving Repr, DecidableEq

/-- `Result.succeed` from `ldap.go`:
success, compareTrue, compareFalse, referral and saslBindInProgress are
"not failures". -/
def LResult.succeed (r : LResult) : Bool :=
  decide (r.code = Success ∨ r.code = CompareTrue ∨ r.code = CompareFalse ∨
    r.code = ReferralCode ∨ r.code = SaslBindInProgress)

/-- `Entry` from `ldap.go`: a DN plus attributes.  Attribute values are
kept as strings as in the source. -/
structure LAttribute where
  name : String
  values : List String
deriving Repr, DecidableEq

structure Entry where
  name : String
  attrs : List LAttribute
deriving Repr, DecidableEq

/-- `extendedResponse` from `ldap.go`: an embedded `Result` plus
`responseName` (OID) and `responseValue` bytes. -/
structure ExtendedResponse where
  result : LResult
  name : String
  value : List Nat := []
deriving Repr, DecidableEq

/-- OIDs of the two distinguished unsolicited notifications
(`client.go`). -/
def noticeDisconnect : String := "1.3.6.1.4.1.1466.20036"
def noticeAbortedTx : String := "1.3.6.1.1.21.4"

/-! ## Raw message decode layer (client.go)

`rawMessage` holds the decoded envelope: the message id and the raw BER
body.  The external `ber` decoder is abstracted: a body is modelled by
its application tag number together with what decoding its bytes as each
of the target shapes would yield (`none` = the BER decoder errors). -/

/-- Model of a raw BER body: the application tag of the protocol-op
(`msg.Body.Peek().Tag()`) and the outcome of decoding the body bytes as
an `Entry`, a `Result`, or an `extendedResponse`. -/
structure RawBody where
  tag : Nat
  asEntry : Option Entry := none
  asResult : Option LResult := none
  asExtended : Option ExtendedResponse := none
deriving Repr, DecidableEq

/-- `rawMessage` from `client.go`. -/
structure RawMessage where
  id : Int
  body : RawBody
deriving Repr, DecidableEq

/-- Error outcomes of `rawMessage.Decode` and the operation helpers.
`resultErr` is an LDAP `Result` returned as a Go `error` value;
`berErr` is a decode failure from the external BER layer. -/
inductive DecodeErr where
  | unsolicitedDisconnect
  | unsolicitedAborted
  | resultErr (r : LResult)
  | berErr
deriving Repr, DecidableEq

/-- `errors.Is(err, ErrUnsolicited)`: only the two wrapped notification
errors match the sentinel; a plain `Result` error does not. -/
def DecodeErr.isUnsolicited : DecodeErr → Bool
  | .unsolicitedDisconnect => true
  | .unsolicitedAborted => true
  | _ => false

/-- The `r.Id == 0` branch of `rawMessage.Decode` (client.go):
decode the body as an extended response and map its `responseName`.
Every path of this branch returns an error. -/
def RawMessage.decodeUnsolicited (m : RawMessage) : DecodeErr :=
  match m.body.asExtended with
  | none => .berErr
  | some e =>
    if e.name = noticeDisconnect then .unsolicitedDisconnect
    else if e.name = noticeAbortedTx then .unsolicitedAborted
    else .resultErr e.result

/-- `rawMessage.Decode(&e)` with an `Entry` target. -/
def RawMessage.decodeEntry (m : RawMessage) : Except DecodeErr Entry :=
  if m.id = 0 then .error m.decodeUnsolicited
  else match m.body.asEntry with
    | some e => .ok e
    | none => .error .berErr

/-- `rawMessage.Decode(&res)` with a `Result` target. -/
def RawMessage.decodeResult (m : RawMessage) : Except DecodeErr LResult :=
  if m.id = 0 then .error m.decodeUnsolicited
  else match m.body.asResult with
    | some r => .ok r
    | none => .error .berErr

/-- `rawMessage.Decode(&res)` with an `extendedResponse` target. -/
def RawMessage.decodeExtended (m : RawMessage) :
    Except DecodeErr ExtendedResponse :=
  if m.id = 0 then .error m.decodeUnsolicited
  else match m.body.asExtended with
    | some e => .ok e
    | none => .error .berErr

/-! ## Compare (client.go `Compare`, `Client.result`) -/

/-- Tail of `Client.result`: a decoded `Result` is an error value exactly
when `succeed()` is false. -/
def resultOutcome (r : LResult) : Option LResult :=
  if r.succeed then none else some r

/-- `Client.Compare`, given the `Result` its response decoded to:
`res, err := c.result(...); return res.Code == CompareTrue, err`. -/
def compareOutcome (r : LResult) : Bool × Option LResult :=
  (r.code == CompareTrue, resultOutcome r)

/-! ## Message-id counter (client.go)

`Client.msgid` is a Go `uint32`; every operation helper (`execute`,
`executeExtended`, `Search`, `Compare`) performs `c.msgid++` exactly once
and then emits the incremented value.  There is no wrap check. -/

def uint32Mod : Nat := 4294967296

/-- `c.msgid++` on the `uint32` field: unsigned wraparound, no check. -/
def nextMsgId (msgid : Nat) : Nat := (msgid + 1) % uint32Mod

/-- One request-envelope assembly: increment the counter once and emit
the new value as the envelope's message id.  Assembly never fails on
account of the counter. -/
def emitStep (msgid : Nat) : Nat × Nat :=
  (nextMsgId msgid, nextMsgId msgid)

/-- The message ids emitted by `k` sequential completed operations
starting from counter value `msgid`. -/
def emittedIds (msgid : Nat) : Nat → List Nat
  | 0 => []
  | k + 1 =>
    let s := emitStep msgid
    s.1 :: emittedIds s.2 k

/-! ## Transactions: Commit / Rollback (client.go) -/

/-- `executeExtended`, given the raw response message the connection
returned (`none` models a transport read/write failure).  The response
is decoded via `rawMessage.Decode` and checked with `succeed()`:
`if res.succeed() { return res, nil }; return res, res.Result`. -/
def executeExtendedOutcome (resp : Option RawMessage) :
    Except DecodeErr ExtendedResponse :=
  match resp with
  | none => .error .berErr
  | some m =>
    match m.decodeExtended with
    | .error e => .error e
    | .ok res => if res.result.succeed then .ok res else .error (.resultErr res.result)

/-- `Client.Commit` / `Client.Rollback` state handling: with a stored
transaction id `tx`, run the End-Transaction extended exchange; the id is
truncated (`c.tx = c.tx[:0]`) exactly when the exchange returned no
error.  Returns the new stored id and the error.  (The `Commit` flag in
the request payload does not influence the state handling; both methods
share this shape.)  An empty `tx` is rejected up front. -/
def endTransaction (tx : List Nat) (resp : Option RawMessage) :
    List Nat × Option DecodeErr :=
  if tx.isEmpty then (tx, some .berErr)
  else
    match executeExtendedOutcome resp with
    | .ok _ => ([], none)
    | .error e => (tx, some e)

/-! ## Search response dispatch (client.go `executeSearch`)

The loop splits the byte stream into raw messages (external BER layer:
modelled by giving the loop the list of raw messages directly), peeks the
application tag of each body and routes: tag 5 decodes a `Result` and
terminates, tag 4 decodes an `Entry` and appends it, tag 19 is skipped,
anything else is a protocol error.  After the loop the final result is
checked with `succeed()`. -/

inductive SearchErr where
  | readErr
  | decodeErr (e : DecodeErr)
  | ldapErr (r : LResult)
  | unexpectedTag (t : Nat)
deriving Repr, DecidableEq

def ldapSearchResEntry : Nat := 4
def ldapSearchResDone : Nat := 5
def ldapSearchResRef : Nat := 19

/-- The message loop of `executeSearch`, accumulating entries; an empty
remaining stream before `searchResDone` models the blocking/failing
`conn.Read`. -/
def searchLoop : List RawMessage → List Entry → Except SearchErr (List Entry)
  | [], _ => .error .readErr
  | m :: rest, acc =>
    if m.body.tag = ldapSearchResDone then
      match m.decodeResult with
      | .error e => .error (.decodeErr e)
      | .ok r => if r.succeed then .ok acc.reverse else .error (.ldapErr r)
    else if m.body.tag = ldapSearchResEntry then
      match m.decodeEntry with
      | .error e => .error (.decodeErr e)
      | .ok e => searchLoop rest (e :: acc)
    else if m.body.tag = ldapSearchResRef then
      searchLoop rest acc
    else
      .error (.unexpectedTag m.body.tag)

/-- `executeSearch`, from the stream of raw response messages. -/
def executeSearch (msgs : List RawMessage) : Except SearchErr (List Entry) :=
  searchLoop msgs []

/-- The entries carried by the searchResEntry messages of a stream, in
arrival order. -/
def searchEntries (msgs : List RawMessage) : List Entry :=
  msgs.filterMap fun m => if m.body.tag = ldapSearchResEntry then m.body.asEntry else none

/-- A message a search loop consumes without terminating: a decodable
searchResEntry or a searchResRef, with a nonzero message id. -/
def searchStreamOk (m : RawMessage) : Prop :=
  m.id ≠ 0 ∧
    ((m.body.tag = ldapSearchResEntry ∧ m.body.asEntry.isSome) ∨
      m.body.tag = ldapSearchResRef)

lemma searchLoop_cons_entry (m : RawMessage) (rest : List RawMessage)
    (acc : List Entry) (e : Entry) (htag : m.body.tag = ldapSearchResEntry)
    (hid : m.id ≠ 0) (he : m.body.asEntry = some e) :
    searchLoop (m :: rest) acc = searchLoop rest (e :: acc) := by
  have hdec : m.decodeEntry = .ok e := by
    rw [RawMessage.decodeEntry, if_neg hid, he]
  rw [searchLoop, if_neg (by rw [htag]; decide), if_pos htag, hdec]

lemma searchLoop_cons_ref (m : RawMessage) (rest : List RawMessage)
    (acc : List Entry) (htag : m.body.tag = ldapSearchResRef) :
    searchLoop (m :: rest) acc = searchLoop rest acc := by
  rw [searchLoop, if_neg (by rw [htag]; decide), if_neg (by rw [htag]; decide),
    if_pos htag]

lemma searchLoop_stream (pre : List RawMessage) (dm : RawMessage) (r : LResult)
    (hpre : ∀ m ∈ pre, searchStreamOk m)
    (hid : dm.id ≠ 0) (htag : dm.body.tag = ldapSearchResDone)
    (hres : dm.body.asResult = some r) (hok : r.succeed = true) :
    ∀ acc, searchLoop (pre ++ [dm]) acc = .ok (acc.reverse ++ searchEntries pre) := by
  induction pre with
  | nil =>
    intro acc
    have hdec : dm.decodeResult = .ok r := by
      rw [RawMessage.decodeResult, if_neg hid, hres]
    rw [List.nil_append, searchLoop, if_pos htag, hdec]
    simp [hok, searchEntries]
  | cons m pre ih =>
    intro acc
    obtain ⟨hmid, hm⟩ := hpre m (List.mem_cons_self m pre)
    have ih' := ih (fun x hx => hpre x (List.mem_cons_of_mem m hx))
    rcases hm with ⟨htag4, hsome⟩ | htag19
    · obtain ⟨e, he⟩ := Option.isSome_iff_exists.mp hsome
      rw [List.cons_append, searchLoop_cons_entry m _ acc e htag4 hmid he,
        ih' (e :: acc)]
      simp [searchEntries, htag4, he]
    · rw [List.cons_append, searchLoop_cons_ref m _ acc htag19, ih' acc]
      have : m.body.tag ≠ ldapSearchResEntry := by rw [htag19]; decide
      simp [searchEntries, this]

lemma searchLoop_badTag (pre : List RawMessage) (bad : RawMessage)
    (rest : List RawMessage) (hpre : ∀ m ∈ pre, searchStreamOk m)
    (h4 : bad.body.tag ≠ ldapSearchResEntry)
    (h5 : bad.body.tag ≠ ldapSearchResDone)
    (h19 : bad.body.tag ≠ ldapSearchResRef) :
    ∀ acc, searchLoop (pre ++ bad :: rest) acc = .error (.unexpectedTag bad.body.tag) := by
  induction pre with
  | nil =>
    intro acc
    rw [List.nil_append, searchLoop, if_neg h5, if_neg h4, if_neg h19]
  | cons m pre ih =>
    intro acc
    obtain ⟨hmid, hm⟩ := hpre m (List.mem_cons_self m pre)
    have ih' := ih (fun x hx => hpre x (List.mem_cons_of_mem m hx))
    rcases hm with ⟨htag4, hsome⟩ | htag19
    · obtain ⟨e, he⟩ := Option.isSome_iff_exists.mp hsome
      rw [List.cons_append, searchLoop_cons_entry m _ acc e htag4 hmid he]
      exact ih' (e :: acc)
    · rw [List.cons_append, searchLoop_cons_ref m _ acc htag19]
      exact ih' acc

/-- C1 (amended): if additionally every response message carries a
nonzero message id, then a stream of searchResEntry / searchResRef
messages followed by a successful searchResDone makes `executeSearch`
return exactly the entries of the searchResEntry messages in arrival
order (searchResRef skipped), and a message with any other application
tag before the searchResDone makes it return the protocol error
`unexpectedTag` and no entries. -/
theorem C1_search_stream_amended :
    (∀ (pre : List RawMessage) (dm : RawMessage) (r : LResult),
      (∀ m ∈ pre, searchStreamOk m) →
      dm.id ≠ 0 → dm.body.tag = ldapSearchResDone →
      dm.body.asResult = some r → r.succeed = true →
      executeSearch (pre ++ [dm]) = .ok (searchEntries pre))
    ∧
    (∀ (pre : List RawMessage) (bad : RawMessage) (rest : List RawMessage),
      (∀ m ∈ pre, searchStreamOk m) →
      bad.body.tag ≠ ldapSearchResEntry → bad.body.tag ≠ ldapSearchResDone →
      bad.body.tag ≠ ldapSearchResRef →
      executeSearch (pre ++ bad :: rest) = .error (.unexpectedTag bad.body.tag)) := by
  constructor
  · intro pre dm r hpre hid htag hres hok
    have h := searchLoop_stream pre dm r hpre hid htag hres hok []
    simpa [executeSearch] using h
  · intro pre bad rest hpre h4 h5 h19
    have h := searchLoop_badTag pre bad rest hpre h4 h5 h19 []
    simpa [executeSearch] using h

/-- Witness for C1: a concrete stream (one entry message, one referral
message, one successful done) yields exactly the one entry. -/
theorem C1_search_stream_witness :
    executeSearch
      [⟨1, ⟨4, some ⟨"uid=jdoe,dc=example", []⟩, none, none⟩⟩,
       ⟨1, ⟨19, none, none, none⟩⟩,
       ⟨1, ⟨5, none, some ⟨0, "", "", []⟩, none⟩⟩] =
      .ok [⟨"uid=jdoe,dc=example", []⟩] := by
  have h := C1_search_stream_amended.1
    [⟨1, ⟨4, some ⟨"uid=jdoe,dc=example", []⟩, none, none⟩⟩,
     ⟨1, ⟨19, none, none, none⟩⟩]
    ⟨1, ⟨5, none, some ⟨0, "", "", []⟩, none⟩⟩ ⟨0, "", "", []⟩
    (by intro m hm; fin_cases hm <;> simp [searchStreamOk, ldapSearchResEntry, ldapSearchResRef])
    (by decide) rfl rfl (by decide)
  simpa [searchEntries, ldapSearchResEntry] using h

/-- Counterexample for C1 as stated: a searchResEntry message whose
envelope id is 0 is routed through the unsolicited-notification branch
of `rawMessage.Decode`, so the call returns an error instead of the
entry, although the stream consists of a tag-4 message followed by a
successful tag-5 message. -/
theorem C1_search_stream_counterexample :
    executeSearch
      [⟨0, ⟨4, some ⟨"uid=a", []⟩, none, none⟩⟩,
       ⟨1, ⟨5, none, some ⟨0, "", "", []⟩, none⟩⟩] =
      .error (.decodeErr .berErr) ∧
    executeSearch
      [⟨0, ⟨4, some ⟨"uid=a", []⟩, none, none⟩⟩,
       ⟨1, ⟨5, none, some ⟨0, "", "", []⟩, none⟩⟩] ≠
      .ok [⟨"uid=a", []⟩] := by
  refine ⟨rfl, fun h => ?_⟩
  exact Except.noConfusion h

/-- C2 (amended): over `k < 2^32` sequential completed operations on a
freshly opened client the emitted message ids are exactly the strictly
increasing sequence `1, 2, ..., k`, each envelope assembly incrementing
the counter exactly once; but a wrap of the counter is not rejected: at
counter value `2^32 - 1` the assembly silently emits id 0. -/
theorem C2_msgid_amended :
    (∀ k, k < uint32Mod →
      emittedIds 0 k = List.range' 1 k ∧ (emittedIds 0 k).Pairwise (· < ·))
    ∧ emitStep (uint32Mod - 1) = (0, 0) := by
  have key : ∀ (k m : Nat), m + k < uint32Mod → emittedIds m k = List.range' (m + 1) k := by
    intro k
    induction k with
    | zero => intro m _; rfl
    | succ k ih =>
      intro m hm
      have h1 : (m + 1) % uint32Mod = m + 1 := Nat.mod_eq_of_lt (by omega)
      have h2 := ih (m + 1) (by omega)
      simp only [emittedIds, emitStep, nextMsgId, h1, h2, List.range']
  refine ⟨fun k hk => ?_, by decide⟩
  have h := key k 0 (by omega)
  refine ⟨by simpa using h, ?_⟩
  rw [show emittedIds 0 k = List.range' 1 k by simpa using h]
  simpa using @List.pairwise_lt_range' 1 k 1 (by omega)

/-- Witness for C2: five operations on a fresh client emit ids
`[1, 2, 3, 4, 5]`. -/
theorem C2_msgid_witness :
    emittedIds 0 5 = [1, 2, 3, 4, 5] ∧ List.Pairwise (· < ·) [1, 2, 3, 4, 5] := by
  have h := C2_msgid_amended.1 5 (by norm_num [uint32Mod])
  exact ⟨by simpa using h.1, by decide⟩

/-- Counterexample for C2 as stated: the claim requires a wrap of the
counter to zero to be rejected, but `c.msgid++` has no wrap check: at
counter `2^32 - 1` the assembly succeeds and emits message id 0, and the
emitted sequence across the wrap (counter `2^32 - 2`, three operations)
is `[4294967295, 0, 1]`, which is not strictly increasing. -/
theorem C2_msgid_counterexample :
    emitStep 4294967295 = (0, 0) ∧
    emittedIds 4294967294 3 = [4294967295, 0, 1] ∧
    ¬ List.Pairwise (· < ·) [4294967295, 0, 1] := by
  refine ⟨by decide, by decide, by decide⟩

/-- C3 (amended): every decoded envelope with message id 0 yields an
error from `rawMessage.Decode` for every decode target; the error is the
distinguished disconnect / aborted-transaction kind for the two notice
OIDs, and for any other responseName it is the extended response's
embedded LDAP `Result` returned as the error — which is not an
unsolicited-notification error. -/
theorem C3_unsolicited_amended (m : RawMessage) (h : m.id = 0) :
    m.decodeResult = .error m.decodeUnsolicited
    ∧ m.decodeEntry = .error m.decodeUnsolicited
    ∧ m.decodeExtended = .error m.decodeUnsolicited
    ∧ (∀ e, m.body.asExtended = some e →
        (e.name = noticeDisconnect → m.decodeUnsolicited = .unsolicitedDisconnect)
        ∧ (e.name = noticeAbortedTx → m.decodeUnsolicited = .unsolicitedAborted)
        ∧ (e.name ≠ noticeDisconnect → e.name ≠ noticeAbortedTx →
            m.decodeUnsolicited = .resultErr e.result
            ∧ (DecodeErr.resultErr e.result).isUnsolicited = false)) := by
  refine ⟨?_, ?_, ?_, ?_⟩
  · rw [RawMessage.decodeResult, if_pos h]
  · rw [RawMessage.decodeEntry, if_pos h]
  · rw [RawMessage.decodeExtended, if_pos h]
  · intro e he
    refine ⟨fun h1 => ?_, fun h2 => ?_, fun h1 h2 => ?_⟩
    · simp only [RawMessage.decodeUnsolicited, he]
      rw [if_pos h1]
    · simp only [RawMessage.decodeUnsolicited, he]
      have hd : e.name ≠ noticeDisconnect := by
        rw [h2]; decide
      rw [if_neg hd, if_pos h2]
    · simp only [RawMessage.decodeUnsolicited, he]
      rw [if_neg h1, if_neg h2]
      exact ⟨rfl, rfl⟩

/-- Witness for C3: a concrete id-0 envelope carrying the disconnection
OID decodes to the distinguished disconnect error. -/
theorem C3_unsolicited_witness :
    RawMessage.decodeResult
        ⟨0, ⟨24, none, none, some ⟨⟨53, "", "", []⟩, "1.3.6.1.4.1.1466.20036", []⟩⟩⟩ =
      .error .unsolicitedDisconnect := by
  have h := C3_unsolicited_amended
    ⟨0, ⟨24, none, none, some ⟨⟨53, "", "", []⟩, "1.3.6.1.4.1.1466.20036", []⟩⟩⟩ rfl
  have h2 := (h.2.2.2 ⟨⟨53, "", "", []⟩, "1.3.6.1.4.1.1466.20036", []⟩ rfl).1 rfl
  rw [h.1, h2]

/-- Counterexample for C3 as stated: for an id-0 envelope whose
responseName is neither notice OID, the claim says a generic
unsolicited-notification error is produced, but the code returns the
embedded LDAP `Result` as the error, which does not match the
`ErrUnsolicited` sentinel. -/
theorem C3_unsolicited_counterexample :
    RawMessage.decodeResult
        ⟨0, ⟨24, none, none, some ⟨⟨53, "busy", "", []⟩, "1.2.3.4", []⟩⟩⟩ =
      .error (.resultErr ⟨53, "busy", "", []⟩) ∧
    (DecodeErr.resultErr ⟨53, "busy", "", []⟩).isUnsolicited = false := by
  exact ⟨rfl, rfl⟩

/-- The result codes `Result.succeed` treats as "not failures". -/
def succeedCodes : List Int :=
  [Success, CompareTrue, CompareFalse, ReferralCode, SaslBindInProgress]

/-- C4 (amended): `Compare` maps result code 5 to `(false, no error)`
and code 6 to `(true, no error)`, as claimed; but codes 0, 10 and 14 also
yield no error (with the boolean `false`), and only a code outside
`{0, 5, 6, 10, 14}` yields an error (the `Result` itself, with the
boolean `false`). -/
theorem C4_compare_amended (r : LResult) :
    (r.code = CompareFalse → compareOutcome r = (false, none))
    ∧ (r.code = CompareTrue → compareOutcome r = (true, none))
    ∧ (r.code = Success ∨ r.code = ReferralCode ∨ r.code = SaslBindInProgress →
        compareOutcome r = (false, none))
    ∧ (r.code ∉ succeedCodes → compareOutcome r = (false, some r)) := by
  refine ⟨fun h => ?_, fun h => ?_, fun h => ?_, fun h => ?_⟩
  · simp [compareOutcome, resultOutcome, LResult.succeed, h, CompareFalse, CompareTrue]
  · simp [compareOutcome, resultOutcome, LResult.succeed, h, CompareTrue]
  · rcases h with h | h | h <;>
      simp [compareOutcome, resultOutcome, LResult.succeed, h, Success, CompareTrue,
        CompareFalse, ReferralCode, SaslBindInProgress]
  · simp only [succeedCodes, List.mem_cons, List.not_mem_nil, or_false, not_or] at h
    obtain ⟨h0, h6, h5, h10, h14⟩ := h
    simp [compareOutcome, resultOutcome, LResult.succeed, h0, h5, h6, h10, h14]

/-- Witness for C4: concrete results with codes 5 and 6. -/
theorem C4_compare_witness :
    compareOutcome ⟨5, "", "", []⟩ = (false, none)
    ∧ compareOutcome ⟨6, "", "", []⟩ = (true, none)
    ∧ compareOutcome ⟨32, "", "", []⟩ = (false, some ⟨32, "", "", []⟩) := by
  refine ⟨(C4_compare_amended ⟨5, "", "", []⟩).1 rfl,
    (C4_compare_amended ⟨6, "", "", []⟩).2.1 rfl,
    (C4_compare_amended ⟨32, "", "", []⟩).2.2.2 (by decide)⟩

/-- Counterexample for C4 as stated: result code 0 (success) is neither
compareFalse nor compareTrue, yet `Compare` returns `(false, nil)` — no
error — because `succeed()` also accepts code 0. -/
theorem C4_compare_counterexample :
    compareOutcome ⟨0, "", "", []⟩ = (false, none) ∧
    (0 : Int) ≠ CompareFalse ∧ (0 : Int) ≠ CompareTrue := by
  exact ⟨rfl, by decide, by decide⟩

/-- C5 (confirmed): with a transaction id stored, `Commit`/`Rollback`
clear the stored id exactly when the End-Transaction exchange succeeds,
and leave it unchanged on any error. -/
theorem C5_transaction_clear (tx : List Nat) (resp : Option RawMessage)
    (h : tx ≠ []) :
    ((endTransaction tx resp).1 = [] ↔
      ∃ res, executeExtendedOutcome resp = .ok res)
    ∧ ((endTransaction tx resp).2 ≠ none → (endTransaction tx resp).1 = tx)
    ∧ ((endTransaction tx resp).2 = none ↔
      ∃ res, executeExtendedOutcome resp = .ok res) := by
  have hne : ¬ tx.isEmpty := by simpa [List.isEmpty_iff] using h
  rw [endTransaction, if_neg (by simpa using hne)]
  cases hout : executeExtendedOutcome resp with
  | ok res => simp [hout]
  | error e => simp [hout, h]

/-- Witness for C5: a stored id `[1, 2]` with a successful exchange is
cleared; the same id with a failing exchange is kept. -/
theorem C5_transaction_clear_witness :
    (endTransaction [1, 2]
        (some ⟨3, ⟨24, none, none, some ⟨⟨0, "", "", []⟩, "", []⟩⟩⟩)).1 = []
    ∧ (endTransaction [1, 2] none).1 = [1, 2] := by
  constructor
  · exact (C5_transaction_clear [1, 2]
      (some ⟨3, ⟨24, none, none, some ⟨⟨0, "", "", []⟩, "", []⟩⟩⟩)
      (by decide)).1.mpr ⟨⟨⟨0, "", "", []⟩, "", []⟩, rfl⟩
  · exact (C5_transaction_clear [1, 2] none (by decide)).2.1 (by decide)

/-! ## Filter algebra (filter.go)

The six filter shapes of `filter.go` as one inductive type.  The Go
`Filter` is an interface; a `nil` interface value (producible by the
`case rparen` branch of `parseFilter`) is the `null` constructor. -/

def tagFilterAnd : Nat := 0
def tagFilterOr : Nat := 1
def tagFilterNot : Nat := 2
def tagFilterEquality : Nat := 3
def tagFilterSubstrings : Nat := 4
def tagFilterGreaterEq : Nat := 5
def tagFilterLesserEq : Nat := 6
def tagFilterPresent : Nat := 7
def tagFilterApprox : Nat := 8
def tagFilterExtensible : Nat := 9

inductive Filter where
  /-- the Go `nil` interface value -/
  | null
  /-- `compare{left, right, tag}`: equality / ≥ / ≤ / approx -/
  | cmp (tag : Nat) (left right : String)
  /-- `relational{filters, tag}`: and / or -/
  | rel (tag : Nat) (filters : List Filter)
  /-- `not{inner}` -/
  | fnot (inner : Filter)
  /-- `present{attr}` -/
  | fpresent (attr : String)
  /-- `substring{attr, pre, post, any}` -/
  | sub (attr preStr postStr : String) (anyStrs : List String)
  /-- `extensible{attr, rule, dn, value}` -/
  | ext (attr rule : String) (dn : Bool) (value : String)

def Equal (attr value : String) : Filter := .cmp tagFilterEquality attr value
def LessEq (attr value : String) : Filter := .cmp tagFilterLesserEq attr value
def GreatEq (attr value : String) : Filter := .cmp tagFilterGreaterEq attr value
def Approx (attr value : String) : Filter := .cmp tagFilterApprox attr value
def And (filters : List Filter) : Filter := .rel tagFilterAnd filters
def Or (filters : List Filter) : Filter := .rel tagFilterOr filters
def Present (attr : String) : Filter := .fpresent attr
def ExtensibleMatch (attr rule value : String) (dn : Bool) : Filter :=
  .ext attr rule dn value

/-- The `Not()` method of the filter shapes: every shape wraps itself in
a `not` node, except a `not` node, which returns its inner filter. -/
def Filter.Not : Filter → Filter
  | .fnot inner => inner
  | f => .fnot f

/-- `Substring(attr, values)` from filter.go: a non-empty first value
becomes the initial fragment; the last of the remaining values becomes
the final fragment only when there are at least two remaining values and
it is non-empty; everything left is the `any` list. -/
def Substring (attr : String) (values : List String) : Filter :=
  match values with
  | [] => .sub attr "" "" []
  | v0 :: rest =>
    let p := if v0 ≠ "" then v0 else ""
    let n := rest.length - 1
    if 0 < n ∧ rest.getD n "" ≠ "" then
      .sub attr p (rest.getD n "") (rest.take n)
    else
      .sub attr p "" rest

/-! ## Rune scanner (filter.go `scanner`)

The Go scanner walks a byte slice with `utf8.DecodeRune`; on valid UTF-8
this is rune-for-rune, so the model works on the rune sequence.  `Next`
returns `(0, io.EOF)` when the decoded rune is `utf8.RuneError` — at the
end of input or at a literal U+FFFD character — leaving the scanner
unmoved; `Back` steps back one rune; `Curr` returns 0 at offset 0. -/

def runeError : Char := '�'

structure Scanner where
  input : List Char
  curr : Nat
  next : Nat
deriving Repr, DecidableEq

def scan (s : List Char) : Scanner := ⟨s, 0, 0⟩

def Scanner.peek (s : Scanner) : Char :=
  s.input.getD s.next runeError

def Scanner.currRune (s : Scanner) : Char :=
  if s.curr = 0 then Char.ofNat 0 else s.input.getD s.curr runeError

def Scanner.back (s : Scanner) : Scanner :=
  if s.curr = 0 then s else ⟨s.input, s.curr - 1, s.curr⟩

def Scanner.nextRune (s : Scanner) : Option (Char × Scanner) :=
  if s.next < s.input.length then
    let r := s.input.getD s.next runeError
    if r = runeError then none
    else some (r, ⟨s.input, s.next, s.next + 1⟩)
  else none

/-- `scanner.ScanUntil(accept, delim)`.  The Go loop ignores the error
of `Next` and continues with rune 0; since rune 0 is a delimiter at none
of the call sites, an inner EOF is either an illegal-character error
(`accept 0` false) or an infinite loop (`accept 0` true): both are
modelled as `none`, as is fuel exhaustion. -/
def scanUntilF (accept delim : Char → Bool) : Nat → Scanner →
    Option (List Char × Scanner)
  | 0, _ => none
  | fuel + 1, s =>
    match s.nextRune with
    | some (r, s') =>
      if delim r then some ([], s')
      else if accept r then
        match scanUntilF accept delim fuel s' with
        | some (v, s'') => some (r :: v, s'')
        | none => none
      else none
    | none => if delim (Char.ofNat 0) then some ([], s) else none

/-! ## Filter parser (filter.go) -/

def isDigitC (r : Char) : Bool := decide ('0' ≤ r ∧ r ≤ '9')

def isLetterC (r : Char) : Bool :=
  decide (('a' ≤ r ∧ r ≤ 'z') ∨ ('A' ≤ r ∧ r ≤ 'Z'))

def isOperatorC (r : Char) : Bool :=
  r = ':' || r = '=' || r = '<' || r = '>' || r = '~'

/-- The accept set of `parseAttr` and `parseRule`. -/
def attrAccept (r : Char) : Bool :=
  isDigitC r || isLetterC r || r = '.' || r = '-'

/-- `filterParser` fields (`filterParser` struct in filter.go). -/
structure FilterParserSt where
  type : Nat := 0
  name : String := ""
  rule : String := ""
  dn : Bool := false
  values : List String := []
deriving Repr, DecidableEq

/-- `filterParser.parseAttr`. -/
def parseAttrF (fuel : Nat) (s : Scanner) : Option (String × Scanner) :=
  match scanUntilF attrAccept isOperatorC fuel s with
  | some (v, s') => some (⟨v⟩, s'.back)
  | none => none

/-- ASCII case of `strings.ToLower`, which is all the rule scanner can
produce (its accept set is ASCII letters, digits, `.` and `-`). -/
def toLowerAscii (c : Char) : Char :=
  if 'A' ≤ c ∧ c ≤ 'Z' then Char.ofNat (c.toNat + 32) else c

/-- `filterParser.parseRule`: returns the matching rule and the
dn-attributes flag. -/
def parseRuleF (fuel : Nat) (s : Scanner) : Option ((String × Bool) × Scanner) :=
  match scanUntilF attrAccept (fun r => r = ':') fuel s with
  | none => none
  | some (v, s1) =>
    let rule : String := ⟨v⟩
    if v.map toLowerAscii ≠ ['d', 'n'] then some ((rule, false), s1)
    else if isOperatorC s1.peek ∧ s1.peek ≠ ':' then some (("", true), s1)
    else
      match scanUntilF attrAccept (fun r => r = ':') fuel s1 with
      | none => none
      | some (v2, s2) => some ((⟨v2⟩, true), s2)

/-- The operator `switch` at the tail of `filterParser.parseAttribute`,
acting on the already-parsed name/rule/dn and the operator rune `r`.
`isExt` records whether the extensible `:`-prefix path was taken. -/
def parseOpSwitch (st : FilterParserSt) (isExt : Bool) (r : Char) (s : Scanner) :
    Option (FilterParserSt × Scanner) :=
  if r = '<' then
    match s.nextRune with
    | some (r2, s2) =>
      if r2 = '=' then some ({ st with type := tagFilterLesserEq }, s2) else none
    | none => none
  else if r = '>' then
    match s.nextRune with
    | some (r2, s2) =>
      if r2 = '=' then some ({ st with type := tagFilterGreaterEq }, s2) else none
    | none => none
  else if r = '=' then
    if isExt then some ({ st with type := tagFilterExtensible }, s)
    else
      match s.nextRune with
      | some (r2, s2) =>
        if r2 = '*' then
          if s2.peek = ')' then
            match s2.nextRune with
            | some (_, s3) => some ({ st with type := tagFilterPresent }, s3)
            | none => none
          else some ({ st with type := tagFilterEquality }, s2.back)
        else some ({ st with type := tagFilterEquality }, s2.back)
      | none =>
        -- Next failed: Go ignores the error, r stays 0 ≠ '*', Back()
        some ({ st with type := tagFilterEquality }, s.back)
  else if r = '~' then
    match s.nextRune with
    | some (r2, s2) =>
      if r2 = '=' then some ({ st with type := tagFilterApprox }, s2) else none
    | none => none
  else none

/-- `filterParser.parseAttribute`. -/
def parseAttributeF (fuel : Nat) (s : Scanner) : Option (FilterParserSt × Scanner) :=
  match parseAttrF fuel s with
  | none => none
  | some (name, s1) =>
    match s1.nextRune with
    | none => none
    | some (r, s2) =>
      if r = ':' then
        match parseRuleF fuel s2 with
        | none => none
        | some ((rule, dn), s3) =>
          let st : FilterParserSt :=
            { type := tagFilterExtensible, name := name, rule := rule, dn := dn }
          if s3.currRune = ':' then
            match s3.nextRune with
            | some (r', s4) => parseOpSwitch st true r' s4
            | none => parseOpSwitch st true (Char.ofNat 0) s3
          else parseOpSwitch st true r s3
      else parseOpSwitch { name := name } false r s2

/-- The value loop of `filterParser.parseValue`: scan `*`/`)`-delimited
chunks until the delimiter just consumed is `)`. -/
def parseValueLoopF : Nat → Scanner → Option (List String × Scanner)
  | 0, _ => none
  | fuel + 1, s =>
    match scanUntilF (fun _ => true) (fun r => r = '*' || r = ')') fuel s with
    | none => none
    | some (v, s1) =>
      if s1.currRune = ')' then some ([(⟨v⟩ : String)], s1)
      else
        match parseValueLoopF fuel s1 with
        | none => none
        | some (vs, s2) => some ((⟨v⟩ : String) :: vs, s2)

/-- `filterParser.parseValue` including the value-count switch. -/
def parseValueF (fuel : Nat) (st : FilterParserSt) (s : Scanner) :
    Option (FilterParserSt × Scanner) :=
  match parseValueLoopF fuel s with
  | none => none
  | some (vs, s1) =>
    let st' := { st with values := st.values ++ vs }
    if st'.type = tagFilterGreaterEq ∨ st'.type = tagFilterLesserEq ∨
        st'.type = tagFilterApprox ∨ st'.type = tagFilterExtensible then
      if st'.values.length > 1 then none else some (st', s1)
    else if st'.type = tagFilterEquality ∧ st'.values.length > 1 then
      some ({ st' with type := tagFilterSubstrings }, s1)
    else some (st', s1)

/-- `filterParser.build`. -/
def buildF (st : FilterParserSt) : Option Filter :=
  if st.type = tagFilterEquality then some (Equal st.name (st.values.headD ""))
  else if st.type = tagFilterSubstrings then some (Substring st.name st.values)
  else if st.type = tagFilterGreaterEq then some (GreatEq st.name (st.values.headD ""))
  else if st.type = tagFilterLesserEq then some (LessEq st.name (st.values.headD ""))
  else if st.type = tagFilterPresent then some (Present st.name)
  else if st.type = tagFilterApprox then some (Approx st.name (st.values.headD ""))
  else if st.type = tagFilterExtensible then
    some (ExtensibleMatch st.name st.rule (st.values.headD "") st.dn)
  else none

/-- `parseItem` / `filterParser.Parse`. -/
def parseItemF (fuel : Nat) (s : Scanner) : Option (Filter × Scanner) :=
  match parseAttributeF fuel s with
  | none => none
  | some (st, s1) =>
    if st.type = tagFilterPresent then
      match buildF st with
      | some f => some (f, s1)
      | none => none
    else
      match parseValueF fuel st s1 with
      | none => none
      | some (st2, s2) =>
        match buildF st2 with
        | some f => some (f, s2)
        | none => none

mutual

/-- `parseFilter` (filter.go): `"(" filtercomp ")"`, where the closing
parenthesis of an `&`/`|` list is consumed by `parseList`, the one of an
item by `parseValue`, and the one of a `!` filter is left unconsumed, as
in the source. -/
def parseFilterF : Nat → Scanner → Option (Filter × Scanner)
  | 0, _ => none
  | fuel + 1, s =>
    match s.nextRune with
    | none => none
    | some (r, s1) =>
      if r = '(' then
        match s1.nextRune with
        | none => none
        | some (r2, s2) =>
          if r2 = '&' then
            match parseListF fuel s2 with
            | none => none
            | some (fs, s3) => some (And fs, s3)
          else if r2 = '|' then
            match parseListF fuel s2 with
            | none => none
            | some (fs, s3) => some (Or fs, s3)
          else if r2 = '!' then
            match parseFilterF fuel s2 with
            | none => none
            | some (f, s3) => some (.fnot f, s3)
          else if r2 = ')' then some (.null, s2)
          else parseItemF fuel s2.back
      else none

/-- `parseList` (filter.go). -/
def parseListF : Nat → Scanner → Option (List Filter × Scanner)
  | 0, _ => none
  | fuel + 1, s =>
    match parseFilterF fuel s with
    | none => none
    | some (f, s1) =>
      if s1.peek = ')' then
        match s1.nextRune with
        | some (_, s2) => some ([f], s2)
        | none => some ([f], s1)
      else
        match parseListF fuel s1 with
        | none => none
        | some (fs, s2) => some (f :: fs, s2)

end

/-- `ParseFilter` (filter.go) at the rune level: the empty string maps to
`present(objectClass)` without touching the parser; rune sequences are
always valid UTF-8 once encoded, so the `utf8.ValidString` guard passes. -/
def ParseFilterRunes (fuel : Nat) (s : List Char) : Option Filter :=
  if s = [] then some (Present "objectClass")
  else (parseFilterF fuel (scan s)).map (·.1)

/-! ### Scanner facts -/

lemma getElem?_of_drop {α : Type} {l t : List α} {n : Nat} {x : α}
    (h : l.drop n = x :: t) : l[n]? = some x ∧ n < l.length := by
  have hx : l[n]? = some x := by
    have := List.getElem?_drop l n 0
    rw [h] at this
    simpa using this.symm
  exact ⟨hx, (List.getElem?_eq_some.mp hx).1⟩

lemma nextRune_of_drop {inp t : List Char} {c n : Nat} {x : Char}
    (h : inp.drop n = x :: t) (hx : x ≠ runeError) :
    Scanner.nextRune ⟨inp, c, n⟩ = some (x, ⟨inp, n, n + 1⟩) := by
  obtain ⟨hg, hlt⟩ := getElem?_of_drop h
  rw [Scanner.nextRune]
  simp [hlt, List.getD_eq_getElem?_getD, hg, hx]

lemma nextRune_at_end {inp : List Char} {c n : Nat} (h : inp.length ≤ n) :
    Scanner.nextRune ⟨inp, c, n⟩ = none := by
  rw [Scanner.nextRune]
  simp [Nat.not_lt.mpr h]

lemma currRune_of_drop {inp t : List Char} {c n : Nat} {x : Char}
    (h : inp.drop c = x :: t) (hc : c ≠ 0) :
    Scanner.currRune ⟨inp, c, n⟩ = x := by
  obtain ⟨hg, _⟩ := getElem?_of_drop h
  rw [Scanner.currRune]
  simp [hc, List.getD_eq_getElem?_getD, hg]

lemma back_of_pos {inp : List Char} {c n : Nat} (hc : c ≠ 0) :
    Scanner.back ⟨inp, c, n⟩ = ⟨inp, c - 1, c⟩ := by
  rw [Scanner.back]
  simp [hc]

lemma drop_of_drop_cons {l t : List Char} {n : Nat} {x : Char}
    (h : l.drop n = x :: t) : l.drop (n + 1) = t := by
  have := List.tail_drop l n
  rw [h] at this
  simpa using this.symm

/-- Running `ScanUntil` over a stretch of accepted, non-delimiter runes
followed by a delimiter rune consumes exactly that stretch. -/
lemma scanUntilF_run (accept delim : Char → Bool) (v : List Char)
    (hv : ∀ c ∈ v, accept c = true ∧ delim c = false ∧ c ≠ runeError)
    (d : Char) (hd : delim d = true) (hdr : d ≠ runeError) :
    ∀ (fuel n c : Nat) (inp rest : List Char),
      inp.drop n = v ++ d :: rest → v.length + 1 ≤ fuel →
      scanUntilF accept delim fuel ⟨inp, c, n⟩ =
        some (v, ⟨inp, n + v.length, n + v.length + 1⟩) := by
  induction v with
  | nil =>
    intro fuel n c inp rest hdrop hfuel
    obtain ⟨fuel, rfl⟩ : ∃ k, fuel = k + 1 := ⟨fuel - 1, by omega⟩
    rw [scanUntilF, nextRune_of_drop (by simpa using hdrop) hdr]
    simp [hd]
  | cons a v ih =>
    intro fuel n c inp rest hdrop hfuel
    obtain ⟨fuel, rfl⟩ : ∃ k, fuel = k + 1 := ⟨fuel - 1, by omega⟩
    obtain ⟨ha, hnd, har⟩ := hv a (List.mem_cons_self a v)
    have hv' : ∀ c ∈ v, accept c = true ∧ delim c = false ∧ c ≠ runeError :=
      fun c hc => hv c (List.mem_cons_of_mem a hc)
    rw [scanUntilF, nextRune_of_drop (by simpa using hdrop) har]
    simp only [hnd, ha, if_false, if_true, Bool.false_eq_true, ite_false, ite_true]
    rw [ih hv' fuel (n + 1) n inp rest (drop_of_drop_cons (by simpa using hdrop))
      (by simpa using hfuel)]
    have harith : n + 1 + v.length = n + (a :: v).length := by simp; omega
    simp [harith]

lemma drop_append_of_drop {inp l t : List Char} {n : Nat}
    (h : inp.drop n = l ++ t) : inp.drop (n + l.length) = t := by
  rw [← List.drop_drop l.length n inp, h, List.drop_left]

/-- Characters of an attribute name are neither operators nor any of the
structural runes of the filter grammar. -/
lemma attrAccept_props {c : Char} (h : attrAccept c = true) :
    isOperatorC c = false ∧ c ≠ runeError ∧ c ≠ '&' ∧ c ≠ '|' ∧ c ≠ '!' ∧
    c ≠ ')' ∧ c ≠ '(' ∧ c ≠ '*' := by
  have hcases : ('0' ≤ c ∧ c ≤ '9') ∨ (('a' ≤ c ∧ c ≤ 'z') ∨ ('A' ≤ c ∧ c ≤ 'Z')) ∨
      c = '.' ∨ c = '-' := by
    rw [attrAccept, isDigitC, isLetterC] at h
    simp only [Bool.or_eq_true, decide_eq_true_eq] at h
    tauto
  have hne : ∀ x : Char,
      ¬ (('0' ≤ x ∧ x ≤ '9') ∨ (('a' ≤ x ∧ x ≤ 'z') ∨ ('A' ≤ x ∧ x ≤ 'Z')) ∨
        x = '.' ∨ x = '-') → c ≠ x := by
    intro x hx heq
    exact hx (heq ▸ hcases)
  refine ⟨?_, hne _ (by decide), hne _ (by decide), hne _ (by decide),
    hne _ (by decide), hne _ (by decide), hne _ (by decide), hne _ (by decide)⟩
  have h1 := hne ':' (by decide)
  have h2 := hne '=' (by decide)
  have h3 := hne '<' (by decide)
  have h4 := hne '>' (by decide)
  have h5 := hne '~' (by decide)
  simp [isOperatorC, h1, h2, h3, h4, h5]

/-! ### Step lemmas for the parser functions -/

lemma parseFilterF_item {s s1 s2 : Scanner} {r2 : Char} {fuel : Nat}
    (h1 : s.nextRune = some ('(', s1)) (h2 : s1.nextRune = some (r2, s2))
    (ha : r2 ≠ '&') (ho : r2 ≠ '|') (hb : r2 ≠ '!') (hp : r2 ≠ ')') :
    parseFilterF (fuel + 1) s = parseItemF fuel s2.back := by
  simp only [parseFilterF, h1, h2]
  simp [ha, ho, hb, hp]

lemma parseFilterF_bang {s s1 s2 s3 : Scanner} {f : Filter} {fuel : Nat}
    (h1 : s.nextRune = some ('(', s1)) (h2 : s1.nextRune = some ('!', s2))
    (h3 : parseFilterF fuel s2 = some (f, s3)) :
    parseFilterF (fuel + 1) s = some (.fnot f, s3) := by
  simp only [parseFilterF, h1, h2]
  simp [h3]

lemma parseValueLoopF_done {s s1 : Scanner} {v : List Char} {fuel : Nat}
    (h1 : scanUntilF (fun _ => true) (fun r => r = '*' || r = ')') fuel s = some (v, s1))
    (h2 : s1.currRune = ')') :
    parseValueLoopF (fuel + 1) s = some ([(⟨v⟩ : String)], s1) := by
  simp only [parseValueLoopF, h1]
  simp [h2]

lemma parseValueLoopF_cons {s s1 s2 : Scanner} {v : List Char} {vs : List String}
    {fuel : Nat}
    (h1 : scanUntilF (fun _ => true) (fun r => r = '*' || r = ')') fuel s = some (v, s1))
    (h2 : s1.currRune ≠ ')') (h3 : parseValueLoopF fuel s1 = some (vs, s2)) :
    parseValueLoopF (fuel + 1) s = some ((⟨v⟩ : String) :: vs, s2) := by
  simp only [parseValueLoopF, h1]
  simp [h2, h3]

lemma peek_of_drop {inp t : List Char} {c n : Nat} {x : Char}
    (h : inp.drop n = x :: t) : Scanner.peek ⟨inp, c, n⟩ = x := by
  obtain ⟨hg, _⟩ := getElem?_of_drop h
  simp [Scanner.peek, List.getD_eq_getElem?_getD, hg]

/-- C7 (amended): parsing `(attr=*x*y*)` with non-empty fragments `x`
and `y` (free of `*`, `)` and U+FFFD) yields a substring filter with no
initial fragment, no final fragment, and any-fragment list `[x, y, ""]`:
the code keeps a trailing empty any-fragment because `Substring` only
promotes the last value to the final fragment when it is non-empty. -/
theorem C7_substring_amended (attr x y : List Char)
    (hattr : ∀ c ∈ attr, attrAccept c = true) (hane : attr ≠ [])
    (hx : ∀ c ∈ x, c ≠ '*' ∧ c ≠ ')' ∧ c ≠ runeError) (hxne : x ≠ [])
    (hy : ∀ c ∈ y, c ≠ '*' ∧ c ≠ ')' ∧ c ≠ runeError) (hyne : y ≠ []) :
    ∃ fuel st,
      parseFilterF fuel
          (scan ('(' :: (attr ++ '=' :: '*' :: (x ++ '*' :: (y ++ ['*', ')']))))) =
        some (.sub (⟨attr⟩ : String) "" "" [(⟨x⟩ : String), (⟨y⟩ : String), ""], st) := by
  obtain ⟨a0, attr, rfl⟩ : ∃ a as, attr = a :: as :=
    ⟨attr.head hane, attr.tail, (List.head_cons_tail attr hane).symm⟩
  obtain ⟨x0, x, rfl⟩ : ∃ a as, x = a :: as :=
    ⟨x.head hxne, x.tail, (List.head_cons_tail x hxne).symm⟩
  set A : List Char := a0 :: attr with hA
  set X : List Char := x0 :: x with hX
  set rest1 : List Char := '=' :: '*' :: (X ++ '*' :: (y ++ ['*', ')'])) with hrest1
  set inp : List Char := '(' :: (A ++ rest1) with hinp
  -- drop facts along the walk
  have hd1 : inp.drop 1 = A ++ rest1 := rfl
  have hdE : inp.drop (1 + A.length) = rest1 := by
    have := @drop_append_of_drop inp A rest1 1 hd1
    simpa [Nat.add_comm] using this
  have hdS1 : inp.drop (1 + A.length + 1) = '*' :: (X ++ '*' :: (y ++ ['*', ')'])) :=
    drop_of_drop_cons hdE
  have hdX : inp.drop (1 + A.length + 1 + 1) = X ++ '*' :: (y ++ ['*', ')']) :=
    drop_of_drop_cons hdS1
  have hdS2 : inp.drop (1 + A.length + 1 + 1 + X.length) = '*' :: (y ++ ['*', ')']) :=
    drop_append_of_drop hdX
  have hdY : inp.drop (1 + A.length + 1 + 1 + X.length + 1) = y ++ ['*', ')'] :=
    drop_of_drop_cons hdS2
  have hdS3 : inp.drop (1 + A.length + 1 + 1 + X.length + 1 + y.length) = ['*', ')'] :=
    drop_append_of_drop hdY
  have hdRP : inp.drop (1 + A.length + 1 + 1 + X.length + 1 + y.length + 1) = [')'] :=
    drop_of_drop_cons hdS3
  have ha0 := attrAccept_props (hattr a0 (List.mem_cons_self a0 attr))
  have hx0 := hx x0 (List.mem_cons_self x0 x)
  have hvx : ∀ c ∈ X, (fun _ => true) c = true ∧ (c = '*' || c = ')') = false ∧
      c ≠ runeError := by
    intro c hc
    obtain ⟨h1, h2, h3⟩ := hx c hc
    simp [h1, h2, h3]
  have hvy : ∀ c ∈ y, (fun _ => true) c = true ∧ (c = '*' || c = ')') = false ∧
      c ≠ runeError := by
    intro c hc
    obtain ⟨h1, h2, h3⟩ := hy c hc
    simp [h1, h2, h3]
  have hvattr : ∀ c ∈ A, attrAccept c = true ∧ isOperatorC c = false ∧
      c ≠ runeError := by
    intro c hc
    obtain ⟨h1, h2⟩ := attrAccept_props (hattr c hc)
    exact ⟨hattr c hc, h1, h2.1⟩
  obtain ⟨k, hk⟩ : ∃ k, A.length + X.length + y.length + 11 = k + 1 :=
    ⟨A.length + X.length + y.length + 10, by omega⟩
  obtain ⟨k1, hk1⟩ : ∃ j, k = j + 1 := ⟨k - 1, by omega⟩
  obtain ⟨k2, hk2⟩ : ∃ j, k1 = j + 1 := ⟨k1 - 1, by omega⟩
  obtain ⟨k3, hk3⟩ : ∃ j, k2 = j + 1 := ⟨k2 - 1, by omega⟩
  obtain ⟨k4, hk4⟩ : ∃ j, k3 = j + 1 := ⟨k3 - 1, by omega⟩
  -- parseAttr: scan the attribute name, step back before '='
  have hscanA : scanUntilF attrAccept isOperatorC k ⟨inp, 0, 1⟩ =
      some (A, ⟨inp, 1 + A.length, 1 + A.length + 1⟩) :=
    scanUntilF_run attrAccept isOperatorC A hvattr '=' rfl (by decide) k 1 0 inp
      ('*' :: (X ++ '*' :: (y ++ ['*', ')']))) hd1 (by omega)
  have hparseAttr : parseAttrF k ⟨inp, 0, 1⟩ =
      some ((⟨A⟩ : String), ⟨inp, A.length, 1 + A.length⟩) := by
    simp only [parseAttrF, hscanA]
    rw [back_of_pos (by omega)]
    simp [Nat.add_sub_cancel_left]
  -- the '=' operator, then '*' with a non-')' peek: equality, step back
  have hpk : Scanner.peek ⟨inp, 1 + A.length + 1, 1 + A.length + 1 + 1⟩ = x0 :=
    peek_of_drop (show inp.drop (1 + A.length + 1 + 1) =
      x0 :: (x ++ '*' :: (y ++ ['*', ')'])) from by simpa using hdX)
  have hopsw : parseOpSwitch { name := (⟨A⟩ : String) } false '='
      ⟨inp, 1 + A.length, 1 + A.length + 1⟩ =
      some ({ name := (⟨A⟩ : String), type := tagFilterEquality },
        ⟨inp, 1 + A.length, 1 + A.length + 1⟩) := by
    rw [parseOpSwitch, if_neg (by decide), if_neg (by decide), if_pos rfl,
      if_neg (Bool.false_ne_true), nextRune_of_drop hdS1 (by decide)]
    simp only [if_pos rfl, hpk]
    rw [if_neg hx0.2.1, back_of_pos (by omega)]
    simp [Nat.add_sub_cancel_left]
  have hparseAttrib : parseAttributeF k ⟨inp, 0, 1⟩ =
      some ({ name := (⟨A⟩ : String), type := tagFilterEquality },
        ⟨inp, 1 + A.length, 1 + A.length + 1⟩) := by
    simp only [parseAttributeF, hparseAttr, nextRune_of_drop hdE (by decide)]
    rw [if_neg (by decide), hopsw]
  -- the value loop: "", x, y, "" with delimiters *, *, *, )
  have hscan1 : scanUntilF (fun _ => true) (fun r => r = '*' || r = ')') k1
      ⟨inp, 1 + A.length, 1 + A.length + 1⟩ =
      some ([], ⟨inp, 1 + A.length + 1, 1 + A.length + 1 + 1⟩) := by
    have := scanUntilF_run (fun _ => true) (fun r => r = '*' || r = ')') []
      (by simp) '*' (by simp) (by decide) k1 (1 + A.length + 1) (1 + A.length)
      inp (X ++ '*' :: (y ++ ['*', ')'])) hdS1 (by simp only [List.length_nil]; omega)
    simpa using this
  have hscan2 : scanUntilF (fun _ => true) (fun r => r = '*' || r = ')') k2
      ⟨inp, 1 + A.length + 1, 1 + A.length + 1 + 1⟩ =
      some (X, ⟨inp, 1 + A.length + 1 + 1 + X.length,
        1 + A.length + 1 + 1 + X.length + 1⟩) :=
    scanUntilF_run _ _ X hvx '*' (by simp) (by decide) k2 (1 + A.length + 1 + 1)
      (1 + A.length + 1) inp (y ++ ['*', ')']) hdX (by omega)
  have hscan3 : scanUntilF (fun _ => true) (fun r => r = '*' || r = ')') k3
      ⟨inp, 1 + A.length + 1 + 1 + X.length, 1 + A.length + 1 + 1 + X.length + 1⟩ =
      some (y, ⟨inp, 1 + A.length + 1 + 1 + X.length + 1 + y.length,
        1 + A.length + 1 + 1 + X.length + 1 + y.length + 1⟩) :=
    scanUntilF_run _ _ y hvy '*' (by simp) (by decide) k3
      (1 + A.length + 1 + 1 + X.length + 1) (1 + A.length + 1 + 1 + X.length) inp
      [')'] (by simpa using hdY) (by omega)
  have hscan4 : scanUntilF (fun _ => true) (fun r => r = '*' || r = ')') k4
      ⟨inp, 1 + A.length + 1 + 1 + X.length + 1 + y.length,
        1 + A.length + 1 + 1 + X.length + 1 + y.length + 1⟩ =
      some ([], ⟨inp, 1 + A.length + 1 + 1 + X.length + 1 + y.length + 1,
        1 + A.length + 1 + 1 + X.length + 1 + y.length + 1 + 1⟩) := by
    have := scanUntilF_run (fun _ => true) (fun r => r = '*' || r = ')') []
      (by simp) ')' (by simp) (by decide) k4
      (1 + A.length + 1 + 1 + X.length + 1 + y.length + 1)
      (1 + A.length + 1 + 1 + X.length + 1 + y.length) inp []
      (by simpa using hdRP) (by simp only [List.length_nil]; omega)
    simpa using this
  have hloop : parseValueLoopF k ⟨inp, 1 + A.length, 1 + A.length + 1⟩ =
      some (["", (⟨X⟩ : String), (⟨y⟩ : String), ""],
        ⟨inp, 1 + A.length + 1 + 1 + X.length + 1 + y.length + 1,
          1 + A.length + 1 + 1 + X.length + 1 + y.length + 1 + 1⟩) := by
    rw [hk1]
    refine parseValueLoopF_cons hscan1 (by rw [currRune_of_drop hdS1 (by omega)]; decide) ?_
    rw [hk2]
    refine parseValueLoopF_cons hscan2 (by rw [currRune_of_drop hdS2 (by omega)]; decide) ?_
    rw [hk3]
    refine parseValueLoopF_cons hscan3 (by rw [currRune_of_drop hdS3 (by omega)]; decide) ?_
    rw [hk4]
    exact parseValueLoopF_done hscan4 (by rw [currRune_of_drop hdRP (by omega)])
  have hval : parseValueF k { name := (⟨A⟩ : String), type := tagFilterEquality }
      ⟨inp, 1 + A.length, 1 + A.length + 1⟩ =
      some (⟨tagFilterSubstrings, (⟨A⟩ : String), "", false,
          ["", (⟨X⟩ : String), (⟨y⟩ : String), ""]⟩,
        ⟨inp, 1 + A.length + 1 + 1 + X.length + 1 + y.length + 1,
          1 + A.length + 1 + 1 + X.length + 1 + y.length + 1 + 1⟩) := by
    simp only [parseValueF, hloop]
    simp [tagFilterEquality, tagFilterSubstrings, tagFilterGreaterEq,
      tagFilterLesserEq, tagFilterApprox, tagFilterExtensible]
  have hitem : parseItemF k ⟨inp, 0, 1⟩ =
      some (.sub (⟨A⟩ : String) "" "" [(⟨X⟩ : String), (⟨y⟩ : String), ""],
        ⟨inp, 1 + A.length + 1 + 1 + X.length + 1 + y.length + 1,
          1 + A.length + 1 + 1 + X.length + 1 + y.length + 1 + 1⟩) := by
    simp only [parseItemF, hparseAttrib]
    rw [if_neg (by decide), hval]
    simp [buildF, Substring, tagFilterEquality, tagFilterSubstrings, tagFilterPresent]
  refine ⟨k + 1, ⟨inp, 1 + A.length + 1 + 1 + X.length + 1 + y.length + 1,
    1 + A.length + 1 + 1 + X.length + 1 + y.length + 1 + 1⟩, ?_⟩
  simp only [scan]
  rw [parseFilterF_item
    (nextRune_of_drop (show inp.drop 0 = '(' :: (A ++ rest1) from rfl) (by decide))
    (nextRune_of_drop (show inp.drop 1 = a0 :: (attr ++ rest1) from rfl) ha0.2.1)
    ha0.2.2.1 ha0.2.2.2.1 ha0.2.2.2.2.1 ha0.2.2.2.2.2.1]
  rw [back_of_pos (by omega)]
  exact hitem

/-- Witness for C7: `(attr=*x*y*)` parses to the substring filter with
`any = ["x", "y", ""]`. -/
theorem C7_substring_witness :
    ∃ fuel st,
      parseFilterF fuel (scan "(attr=*x*y*)".data) =
        some (.sub "attr" "" "" ["x", "y", ""], st) := by
  have h := C7_substring_amended "attr".data "x".data "y".data
    (by decide) (by decide) (by decide) (by decide) (by decide) (by decide)
  simpa using h

/-- Counterexample for C7 as stated: parsing `(attr=*x*y*)` yields an
any-fragment list `["x", "y", ""]`, not `["x", "y"]`: the trailing empty
fragment survives because `Substring` only strips a non-empty final
value. -/
theorem C7_substring_counterexample :
    ParseFilterRunes 30 "(attr=*x*y*)".data =
      some (.sub "attr" "" "" ["x", "y", ""]) ∧
    (["x", "y", ""] : List String) ≠ ["x", "y"] := by
  exact ⟨rfl, by decide⟩

/-! ### Localisation of the parser inside a larger input

The parser, run at an offset inside `pre ++ f ++ post`, behaves exactly
as on `f` alone whenever the run on `f` alone succeeds: every successful
run stays strictly inside `f` (a run that reaches the end of `f`
fails — with an error or by divergence — rather than succeed).  This is
what lets `parse("(!(!f))")` be computed from `parse(f)`. -/

lemma nextRune_none_iff {inp : List Char} {c n : Nat} :
    Scanner.nextRune ⟨inp, c, n⟩ = none ↔
      inp.length ≤ n ∨ inp.getD n runeError = runeError := by
  rw [Scanner.nextRune]
  by_cases h : n < inp.length
  · simp only [h, if_pos]
    by_cases h2 : inp.getD n runeError = runeError <;> simp [h2, Nat.not_lt.mpr, h] <;> omega
  · simp [h, Nat.not_lt.mp h]

lemma nextRune_inv {inp : List Char} {c n : Nat} {r : Char} {st' : Scanner}
    (h : Scanner.nextRune ⟨inp, c, n⟩ = some (r, st')) :
    st' = ⟨inp, n, n + 1⟩ ∧ n < inp.length ∧ inp.getD n runeError = r ∧
      r ≠ runeError := by
  by_cases hlt : n < inp.length
  · rw [Scanner.nextRune] at h
    simp only [hlt, if_pos, List.getD_eq_getElem?_getD] at h
    by_cases hr : inp[n]?.getD runeError = runeError
    · rw [if_pos hr] at h
      exact absurd h (by simp)
    · rw [if_neg hr] at h
      simp only [Option.some.injEq, Prod.mk.injEq] at h
      refine ⟨h.2.symm, hlt, ?_, ?_⟩
      · rw [List.getD_eq_getElem?_getD]
        exact h.1
      · rw [← h.1]
        exact hr
  · rw [Scanner.nextRune] at h
    simp [hlt] at h

lemma getElem?_emb (pre post f : List Char) {n : Nat} (hn : n < f.length) :
    (pre ++ (f ++ post))[n + pre.length]? = f[n]? := by
  rw [List.getElem?_append, if_neg (by omega),
    show n + pre.length - pre.length = n from by omega,
    List.getElem?_append, if_pos hn]

lemma getD_emb (pre post f : List Char) {n : Nat} (hn : n < f.length) (d : Char) :
    (pre ++ f ++ post).getD (n + pre.length) d = f.getD n d := by
  simp only [List.getD_eq_getElem?_getD, List.append_assoc]
  rw [getElem?_emb pre post f hn]

lemma length_emb_ge (pre post f : List Char) {n : Nat} (hn : n < f.length) :
    n + pre.length < (pre ++ f ++ post).length := by
  simp only [List.length_append]
  omega

lemma nextRune_emb (pre post : List Char) {f : List Char} {c c1 n : Nat} {r : Char}
    {st' : Scanner} (h : Scanner.nextRune ⟨f, c, n⟩ = some (r, st')) :
    Scanner.nextRune ⟨pre ++ f ++ post, c1, n + pre.length⟩ =
      some (r, ⟨pre ++ f ++ post, n + pre.length, n + pre.length + 1⟩) := by
  obtain ⟨hst, hlt, hget, hne⟩ := nextRune_inv h
  have hg : (pre ++ f ++ post).getD (n + pre.length) runeError = r := by
    rw [getD_emb pre post f hlt]
    exact hget
  rw [Scanner.nextRune, if_pos (length_emb_ge pre post f hlt)]
  simp only [hg]
  rw [if_neg hne]

lemma peek_emb (pre post : List Char) {f : List Char} (c c1 : Nat) {n : Nat}
    (hn : n < f.length) :
    Scanner.peek ⟨pre ++ f ++ post, c1, n + pre.length⟩ = Scanner.peek ⟨f, c, n⟩ := by
  show (pre ++ f ++ post).getD (n + pre.length) runeError = f.getD n runeError
  exact getD_emb pre post f hn runeError

lemma currRune_emb (pre post : List Char) {f : List Char} {c n n1 : Nat}
    (hc0 : 1 ≤ c) (hc : c < f.length) :
    Scanner.currRune ⟨pre ++ f ++ post, c + pre.length, n + pre.length⟩ =
      Scanner.currRune ⟨f, c, n1⟩ := by
  rw [Scanner.currRune, Scanner.currRune,
    if_neg (show ¬(c + pre.length = 0) from by omega),
    if_neg (show ¬(c = 0) from by omega)]
  exact getD_emb pre post f hc runeError

lemma parseFilterF_none_of_end {f : List Char} {c n : Nat}
    (h : Scanner.nextRune ⟨f, c, n⟩ = none) :
    ∀ fuel, parseFilterF fuel ⟨f, c, n⟩ = none := by
  intro fuel
  cases fuel with
  | zero => rfl
  | succ fuel => rw [parseFilterF, h]

lemma scanUntilF_none_of_end {accept delim : Char → Bool}
    (hd0 : delim (Char.ofNat 0) = false) {f : List Char} {c n : Nat}
    (h : Scanner.nextRune ⟨f, c, n⟩ = none) :
    ∀ fuel, scanUntilF accept delim fuel ⟨f, c, n⟩ = none := by
  intro fuel
  cases fuel with
  | zero => rfl
  | succ fuel => rw [scanUntilF, h]; simp [hd0]

lemma scanUntilF_delim_step {accept delim : Char → Bool} {fuel : Nat}
    {s s1 : Scanner} {r : Char} (h1 : s.nextRune = some (r, s1))
    (hdel : delim r = true) :
    scanUntilF accept delim (fuel + 1) s = some ([], s1) := by
  simp only [scanUntilF, h1]
  rw [if_pos hdel]

lemma scanUntilF_cons_step {accept delim : Char → Bool} {fuel : Nat}
    {s s1 s2 : Scanner} {r : Char} {v : List Char} (h1 : s.nextRune = some (r, s1))
    (hdel : ¬ delim r = true) (hacc : accept r = true)
    (h2 : scanUntilF accept delim fuel s1 = some (v, s2)) :
    scanUntilF accept delim (fuel + 1) s = some (r :: v, s2) := by
  simp only [scanUntilF, h1]
  rw [if_neg hdel, if_pos hacc, h2]

/-- A successful `ScanUntil` with a delimiter set not containing rune 0
consumes `v` then the delimiter; the embedded scanner does the same. -/
lemma scanUntilF_shift (pre post : List Char) {accept delim : Char → Bool}
    (hd0 : delim (Char.ofNat 0) = false) :
    ∀ {fuel : Nat} {f : List Char} {c n : Nat} {v : List Char} {st' : Scanner},
      scanUntilF accept delim fuel ⟨f, c, n⟩ = some (v, st') →
      st' = ⟨f, n + v.length, n + v.length + 1⟩ ∧ n + v.length < f.length ∧
        scanUntilF accept delim fuel ⟨pre ++ f ++ post, c + pre.length, n + pre.length⟩ =
          some (v, ⟨pre ++ f ++ post, n + v.length + pre.length,
            n + v.length + 1 + pre.length⟩) := by
  intro fuel
  induction fuel with
  | zero => intro f c n v st' h; exact absurd h (by rw [scanUntilF]; simp)
  | succ fuel ih =>
    intro f c n v st' h
    cases hnx : Scanner.nextRune ⟨f, c, n⟩ with
    | none =>
      simp [scanUntilF, hnx, hd0] at h
    | some rs =>
      obtain ⟨r, s1⟩ := rs
      obtain ⟨hs1, hlt, hget, hner⟩ := nextRune_inv hnx
      subst hs1
      by_cases hdel : delim r = true
      · simp only [scanUntilF, hnx] at h
        rw [if_pos hdel] at h
        simp only [Option.some.injEq, Prod.mk.injEq] at h
        obtain ⟨h1, h2⟩ := h
        subst h1; subst h2
        refine ⟨by simp, by simpa using hlt, ?_⟩
        simp only [List.length_nil, Nat.add_zero]
        rw [show n + 1 + pre.length = n + pre.length + 1 from by omega]
        exact scanUntilF_delim_step (nextRune_emb pre post hnx) hdel
      · by_cases hacc : accept r = true
        · cases hrec : scanUntilF accept delim fuel ⟨f, n, n + 1⟩ with
          | none => simp [scanUntilF, hnx, hdel, hacc, hrec] at h
          | some p =>
            obtain ⟨v2, s2⟩ := p
            simp only [scanUntilF, hnx, hrec] at h
            rw [if_neg hdel, if_pos hacc] at h
            simp only [Option.some.injEq, Prod.mk.injEq] at h
            obtain ⟨h1, h2⟩ := h
            subst h1; subst h2
            obtain ⟨hs2, hlt2, hemb⟩ := ih hrec
            refine ⟨by rw [hs2]; simp only [List.length_cons]; congr 1 <;> omega,
              by simp only [List.length_cons]; omega, ?_⟩
            rw [show n + (r :: v2).length + pre.length =
              n + 1 + v2.length + pre.length from by simp; omega]
            rw [show n + (r :: v2).length + 1 + pre.length =
              n + 1 + v2.length + 1 + pre.length from by simp; omega]
            refine scanUntilF_cons_step (nextRune_emb pre post hnx) hdel hacc ?_
            rw [show n + pre.length + 1 = n + 1 + pre.length from by omega]
            exact hemb
        · simp [scanUntilF, hnx, hdel, hacc] at h

lemma nextRune_of_getD {f : List Char} {c m : Nat} (hm : m < f.length)
    (hne : f.getD m runeError ≠ runeError) :
    Scanner.nextRune ⟨f, c, m⟩ = some (f.getD m runeError, ⟨f, m, m + 1⟩) := by
  rw [Scanner.nextRune, if_pos hm]
  show (if f.getD m runeError = runeError then none
      else some (f.getD m runeError, (⟨f, m, m + 1⟩ : Scanner))) =
    some (f.getD m runeError, (⟨f, m, m + 1⟩ : Scanner))
  rw [if_neg hne]

/-- `parseValueLoop` fails from a position whose rune is no value
delimiter when the following position cannot be read: the scanner
swallows the rune and then loops or errors at the unreadable spot. -/
lemma pvLoopF_none_B1 {f : List Char} {ch : Char} {m : Nat} (hm : m < f.length)
    (hch : f.getD m runeError = ch) (hc1 : ch ≠ '*') (hc2 : ch ≠ ')')
    (hc3 : ch ≠ runeError)
    (hend : f.length ≤ m + 1 ∨ f.getD (m + 1) runeError = runeError) :
    ∀ (k c : Nat), parseValueLoopF k ⟨f, c, m⟩ = none := by
  have hinner : ∀ (j c2 : Nat),
      scanUntilF (fun _ => true) (fun r => r = '*' || r = ')') j ⟨f, c2, m + 1⟩ = none :=
    fun j c2 => scanUntilF_none_of_end (by decide) (nextRune_none_iff.mpr hend) j
  have hscan : ∀ (j c' : Nat),
      scanUntilF (fun _ => true) (fun r => r = '*' || r = ')') j ⟨f, c', m⟩ = none := by
    intro j c'
    cases j with
    | zero => rfl
    | succ j =>
      simp only [scanUntilF, nextRune_of_getD hm (by rw [hch]; exact hc3), hch]
      simp [hc1, hc2, hinner j m]
  intro k c
  cases k with
  | zero => rfl
  | succ k => rw [parseValueLoopF, hscan k c]

/-- `parseValueLoop` fails from a `*` delimiter that is the last
readable rune: the empty chunk is recorded and the loop re-scans at the
unreadable position. -/
lemma pvLoopF_none_B2 {f : List Char} {m1 : Nat} (hm : m1 < f.length)
    (h1 : 1 ≤ m1) (hstar : f.getD m1 runeError = '*')
    (hend : f.length ≤ m1 + 1 ∨ f.getD (m1 + 1) runeError = runeError) :
    ∀ (k c : Nat), parseValueLoopF k ⟨f, c, m1⟩ = none := by
  have hinner : ∀ (j c2 : Nat),
      scanUntilF (fun _ => true) (fun r => r = '*' || r = ')') j ⟨f, c2, m1 + 1⟩ = none :=
    fun j c2 => scanUntilF_none_of_end (by decide) (nextRune_none_iff.mpr hend) j
  have hloop2 : ∀ (j c2 : Nat), parseValueLoopF j ⟨f, c2, m1 + 1⟩ = none := by
    intro j c2
    cases j with
    | zero => rfl
    | succ j => rw [parseValueLoopF, hinner j c2]
  intro k c
  cases k with
  | zero => rfl
  | succ k =>
    cases k with
    | zero =>
      rw [parseValueLoopF]
      rfl
    | succ k =>
      have hne : f.getD m1 runeError ≠ runeError := by rw [hstar]; decide
      have hsc : scanUntilF (fun _ => true) (fun r => r = '*' || r = ')') (k + 1)
          ⟨f, c, m1⟩ = some ([], ⟨f, m1, m1 + 1⟩) := by
        refine scanUntilF_delim_step (nextRune_of_getD hm hne) ?_
        rw [hstar]
        decide
      have hcur : Scanner.currRune ⟨f, m1, m1 + 1⟩ = '*' := by
        rw [Scanner.currRune, if_neg (show ¬(m1 = 0) from by omega)]
        exact hstar
      simp only [parseValueLoopF, hsc]
      rw [if_neg (show ¬(Scanner.currRune ⟨f, m1, m1 + 1⟩ = ')') from by
        rw [hcur]; decide)]
      rw [hinner k m1]

lemma parseAttrF_shift (pre post : List Char) {fuel : Nat} {f : List Char}
    {c n : Nat} {name : String} {st' : Scanner}
    (h : parseAttrF fuel ⟨f, c, n⟩ = some (name, st')) (hn : 1 ≤ n) :
    ∃ v : List Char, name = ⟨v⟩ ∧ st' = ⟨f, n + v.length - 1, n + v.length⟩ ∧
      n + v.length < f.length ∧
      parseAttrF fuel ⟨pre ++ f ++ post, c + pre.length, n + pre.length⟩ =
        some (name, ⟨pre ++ f ++ post, n + v.length - 1 + pre.length,
          n + v.length + pre.length⟩) := by
  cases hscan : scanUntilF attrAccept isOperatorC fuel ⟨f, c, n⟩ with
  | none => simp [parseAttrF, hscan] at h
  | some p =>
    obtain ⟨v, s1⟩ := p
    simp only [parseAttrF, hscan] at h
    simp only [Option.some.injEq, Prod.mk.injEq] at h
    obtain ⟨h1, h2⟩ := h
    subst h1; subst h2
    obtain ⟨hs1, hlt, hemb⟩ := scanUntilF_shift pre post (by decide) hscan
    subst hs1
    refine ⟨v, rfl, ?_, hlt, ?_⟩
    · rw [back_of_pos (show n + v.length ≠ 0 from by omega)]
    · simp only [parseAttrF, hemb]
      rw [back_of_pos (show n + v.length + pre.length ≠ 0 from by omega),
        show n + v.length + pre.length - 1 = n + v.length - 1 + pre.length from by omega]

lemma isOperatorC_ne_runeError {r : Char} (h : isOperatorC r = true) :
    r ≠ runeError := by
  intro heq
  subst heq
  exact absurd h (by decide)

lemma parseRuleF_shift (pre post : List Char) {fuel : Nat} {f : List Char}
    {c n : Nat} {rule : String} {dn : Bool} {st' : Scanner}
    (h : parseRuleF fuel ⟨f, c, n⟩ = some ((rule, dn), st')) (hn : 1 ≤ n) :
    st'.input = f ∧ 1 ≤ st'.curr ∧ st'.curr < f.length ∧ st'.next = st'.curr + 1 ∧
      parseRuleF fuel ⟨pre ++ f ++ post, c + pre.length, n + pre.length⟩ =
        some ((rule, dn), ⟨pre ++ f ++ post, st'.curr + pre.length,
          st'.next + pre.length⟩) := by
  cases hscan : scanUntilF attrAccept (fun r => r = ':') fuel ⟨f, c, n⟩ with
  | none => simp [parseRuleF, hscan] at h
  | some p =>
    obtain ⟨v, s1⟩ := p
    obtain ⟨hs1, hlt, hembS⟩ := scanUntilF_shift pre post (by decide) hscan
    subst hs1
    simp only [parseRuleF, hscan] at h
    by_cases hlow : v.map toLowerAscii ≠ ['d', 'n']
    · rw [if_pos hlow] at h
      simp only [Option.some.injEq, Prod.mk.injEq] at h
      obtain ⟨⟨hr1, hr2⟩, h2⟩ := h
      subst hr1; subst hr2; subst h2
      refine ⟨rfl, by show 1 ≤ n + v.length; omega, hlt, rfl, ?_⟩
      simp only [parseRuleF, hembS]
      rw [if_pos hlow]
    · rw [if_neg hlow] at h
      -- peek position after the scanned rule
      by_cases hn1 : n + v.length + 1 < f.length
      · have hpe : Scanner.peek ⟨pre ++ f ++ post, n + v.length + pre.length,
            n + v.length + 1 + pre.length⟩ =
            Scanner.peek ⟨f, n + v.length, n + v.length + 1⟩ := by
          have := peek_emb pre post (n + v.length)
            (n + v.length + pre.length) hn1
          simpa using this
        by_cases hcond : isOperatorC (Scanner.peek ⟨f, n + v.length, n + v.length + 1⟩) =
            true ∧ Scanner.peek ⟨f, n + v.length, n + v.length + 1⟩ ≠ ':'
        · rw [if_pos hcond] at h
          simp only [Option.some.injEq, Prod.mk.injEq] at h
          obtain ⟨⟨hr1, hr2⟩, h2⟩ := h
          subst hr1; subst hr2; subst h2
          refine ⟨rfl, by show 1 ≤ n + v.length; omega, hlt, rfl, ?_⟩
          simp only [parseRuleF, hembS]
          rw [if_neg hlow, if_pos (by rw [hpe]; exact hcond)]
        · rw [if_neg hcond] at h
          cases hscan2 : scanUntilF attrAccept (fun r => r = ':') fuel
              ⟨f, n + v.length, n + v.length + 1⟩ with
          | none => rw [hscan2] at h; exact absurd h (by simp)
          | some p2 =>
            obtain ⟨v2, s2⟩ := p2
            obtain ⟨hs2, hlt2, hembS2⟩ := scanUntilF_shift pre post (by decide) hscan2
            subst hs2
            rw [hscan2] at h
            simp only [Option.some.injEq, Prod.mk.injEq] at h
            obtain ⟨⟨hr1, hr2⟩, h2⟩ := h
            subst hr1; subst hr2; subst h2
            refine ⟨rfl, by show 1 ≤ n + v.length + 1 + v2.length; omega, hlt2, rfl, ?_⟩
            simp only [parseRuleF, hembS]
            rw [if_neg hlow, if_neg (by rw [hpe]; exact hcond), hembS2]
      · -- the rule scan ended at the last readable rune: the second scan fails
        have hend : Scanner.nextRune ⟨f, n + v.length, n + v.length + 1⟩ = none :=
          nextRune_none_iff.mpr (Or.inl (by omega))
        have hpk : Scanner.peek ⟨f, n + v.length, n + v.length + 1⟩ = runeError := by
          show f.getD (n + v.length + 1) runeError = runeError
          exact List.getD_eq_default f runeError (by omega)
        have hcond : ¬ (isOperatorC (Scanner.peek ⟨f, n + v.length, n + v.length + 1⟩) =
            true ∧ Scanner.peek ⟨f, n + v.length, n + v.length + 1⟩ ≠ ':') := by
          rw [hpk]
          intro hx
          exact absurd rfl (isOperatorC_ne_runeError hx.1)
        rw [if_neg hcond,
          scanUntilF_none_of_end (by decide) hend fuel] at h
        exact absurd h (by simp)

lemma parseOpSwitch_char0 (st : FilterParserSt) (isExt : Bool) (s : Scanner) :
    parseOpSwitch st isExt (Char.ofNat 0) s = none := by
  rw [parseOpSwitch, if_neg (by decide), if_neg (by decide), if_neg (by decide),
    if_neg (by decide)]

/-- Shift lemma for the operator switch in the extensible path
(`isExt = true`): every successful outcome is aligned. -/
lemma parseOpSwitch_shift_true (pre post : List Char) {st : FilterParserSt}
    {r : Char} {f : List Char} {c n : Nat} {st2 : FilterParserSt} {s2 : Scanner}
    (h : parseOpSwitch st true r ⟨f, c, n⟩ = some (st2, s2)) (hn : 1 ≤ n) :
    s2.input = f ∧ 1 ≤ s2.next ∧
      parseOpSwitch st true r ⟨pre ++ f ++ post, c + pre.length, n + pre.length⟩ =
        some (st2, ⟨pre ++ f ++ post, s2.curr + pre.length, s2.next + pre.length⟩) := by
  by_cases h1 : r = '<'
  · rw [parseOpSwitch, if_pos h1] at h
    cases hnx : Scanner.nextRune ⟨f, c, n⟩ with
    | none => simp [hnx] at h
    | some rs =>
      obtain ⟨r2, sx⟩ := rs
      obtain ⟨hsx, hlt, hget, hner⟩ := nextRune_inv hnx
      subst hsx
      simp only [hnx] at h
      by_cases h2 : r2 = '='
      · rw [if_pos h2] at h
        simp only [Option.some.injEq, Prod.mk.injEq] at h
        obtain ⟨h3, h4⟩ := h
        subst h3; subst h4
        refine ⟨rfl, by show 1 ≤ n + 1; omega, ?_⟩
        rw [parseOpSwitch, if_pos h1]
        simp only [nextRune_emb pre post hnx]
        rw [if_pos h2, show n + pre.length + 1 = n + 1 + pre.length from by omega]
      · rw [if_neg h2] at h
        exact absurd h (by simp)
  · by_cases h2 : r = '>'
    · rw [parseOpSwitch, if_neg h1, if_pos h2] at h
      cases hnx : Scanner.nextRune ⟨f, c, n⟩ with
      | none => simp [hnx] at h
      | some rs =>
        obtain ⟨r2, sx⟩ := rs
        obtain ⟨hsx, hlt, hget, hner⟩ := nextRune_inv hnx
        subst hsx
        simp only [hnx] at h
        by_cases h3 : r2 = '='
        · rw [if_pos h3] at h
          simp only [Option.some.injEq, Prod.mk.injEq] at h
          obtain ⟨h4, h5⟩ := h
          subst h4; subst h5
          refine ⟨rfl, by show 1 ≤ n + 1; omega, ?_⟩
          rw [parseOpSwitch, if_neg h1, if_pos h2]
          simp only [nextRune_emb pre post hnx]
          rw [if_pos h3, show n + pre.length + 1 = n + 1 + pre.length from by omega]
        · rw [if_neg h3] at h
          exact absurd h (by simp)
    · by_cases h3 : r = '='
      · rw [parseOpSwitch, if_neg h1, if_neg h2, if_pos h3] at h
        have h' : some ({ st with type := tagFilterExtensible }, (⟨f, c, n⟩ : Scanner)) =
            some (st2, s2) := h
        simp only [Option.some.injEq, Prod.mk.injEq] at h'
        obtain ⟨h4, h5⟩ := h'
        subst h4; subst h5
        refine ⟨rfl, by show 1 ≤ n; omega, ?_⟩
        rw [parseOpSwitch, if_neg h1, if_neg h2, if_pos h3]
        exact rfl
      · by_cases h4 : r = '~'
        · rw [parseOpSwitch, if_neg h1, if_neg h2, if_neg h3, if_pos h4] at h
          cases hnx : Scanner.nextRune ⟨f, c, n⟩ with
          | none => simp [hnx] at h
          | some rs =>
            obtain ⟨r2, sx⟩ := rs
            obtain ⟨hsx, hlt, hget, hner⟩ := nextRune_inv hnx
            subst hsx
            simp only [hnx] at h
            by_cases h5 : r2 = '='
            · rw [if_pos h5] at h
              simp only [Option.some.injEq, Prod.mk.injEq] at h
              obtain ⟨h6, h7⟩ := h
              subst h6; subst h7
              refine ⟨rfl, by show 1 ≤ n + 1; omega, ?_⟩
              rw [parseOpSwitch, if_neg h1, if_neg h2, if_neg h3, if_pos h4]
              simp only [nextRune_emb pre post hnx]
              rw [if_pos h5, show n + pre.length + 1 = n + 1 + pre.length from by omega]
            · rw [if_neg h5] at h
              exact absurd h (by simp)
        · rw [parseOpSwitch, if_neg h1, if_neg h2, if_neg h3, if_neg h4] at h
          exact absurd h (by simp)

/-- Shift lemma for the operator switch in the plain path
(`isExt = false`), entered right after `Next` read the operator rune `r`
at position `m`: either the embedded run is aligned, or the run stopped
in the equality branch in a state from which `parseValue` must fail. -/
lemma parseOpSwitch_shift_false (pre post : List Char) {st : FilterParserSt}
    {r : Char} {f : List Char} {m : Nat} {st2 : FilterParserSt} {s2 : Scanner}
    (h : parseOpSwitch st false r ⟨f, m, m + 1⟩ = some (st2, s2))
    (hm : 1 ≤ m) (hmlt : m < f.length) (hget : f.getD m runeError = r)
    (hrne : r ≠ runeError) :
    s2.input = f ∧ 1 ≤ s2.next ∧
      (parseOpSwitch st false r
          ⟨pre ++ f ++ post, m + pre.length, m + 1 + pre.length⟩ =
          some (st2, ⟨pre ++ f ++ post, s2.curr + pre.length, s2.next + pre.length⟩)
        ∨ (st2.type = tagFilterEquality ∧ ∀ k, parseValueLoopF k s2 = none)) := by
  by_cases h1 : r = '<'
  · rw [parseOpSwitch, if_pos h1] at h
    cases hnx : Scanner.nextRune ⟨f, m, m + 1⟩ with
    | none => simp [hnx] at h
    | some rs =>
      obtain ⟨r2, sx⟩ := rs
      obtain ⟨hsx, hlt, hget2, hner⟩ := nextRune_inv hnx
      subst hsx
      simp only [hnx] at h
      by_cases h2 : r2 = '='
      · rw [if_pos h2] at h
        simp only [Option.some.injEq, Prod.mk.injEq] at h
        obtain ⟨h3, h4⟩ := h
        subst h3; subst h4
        refine ⟨rfl, by show 1 ≤ m + 1 + 1; omega, Or.inl ?_⟩
        rw [parseOpSwitch, if_pos h1]
        simp only [nextRune_emb pre post hnx]
        rw [if_pos h2, show m + 1 + pre.length + 1 = m + 1 + 1 + pre.length from by omega]
      · rw [if_neg h2] at h
        exact absurd h (by simp)
  · by_cases h2 : r = '>'
    · rw [parseOpSwitch, if_neg h1, if_pos h2] at h
      cases hnx : Scanner.nextRune ⟨f, m, m + 1⟩ with
      | none => simp [hnx] at h
      | some rs =>
        obtain ⟨r2, sx⟩ := rs
        obtain ⟨hsx, hlt, hget2, hner⟩ := nextRune_inv hnx
        subst hsx
        simp only [hnx] at h
        by_cases h3 : r2 = '='
        · rw [if_pos h3] at h
          simp only [Option.some.injEq, Prod.mk.injEq] at h
          obtain ⟨h4, h5⟩ := h
          subst h4; subst h5
          refine ⟨rfl, by show 1 ≤ m + 1 + 1; omega, Or.inl ?_⟩
          rw [parseOpSwitch, if_neg h1, if_pos h2]
          simp only [nextRune_emb pre post hnx]
          rw [if_pos h3, show m + 1 + pre.length + 1 = m + 1 + 1 + pre.length from by omega]
        · rw [if_neg h3] at h
          exact absurd h (by simp)
    · by_cases h3 : r = '='
      · rw [parseOpSwitch, if_neg h1, if_neg h2, if_pos h3] at h
        rw [if_neg (Bool.false_ne_true)] at h
        cases hnx : Scanner.nextRune ⟨f, m, m + 1⟩ with
        | none =>
          -- '=' is the last readable rune: Back, type equality; the
          -- coming value scan must fail at the unreadable position
          simp only [hnx] at h
          rw [back_of_pos (show m ≠ 0 from by omega)] at h
          simp only [Option.some.injEq, Prod.mk.injEq] at h
          obtain ⟨h4, h5⟩ := h
          subst h4; subst h5
          refine ⟨rfl, by show 1 ≤ m; omega, Or.inr ⟨rfl, fun k => ?_⟩⟩
          exact pvLoopF_none_B1 hmlt (h3 ▸ hget) (by decide) (by decide) (by decide)
            (nextRune_none_iff.mp hnx) k (m - 1)
        | some rs =>
          obtain ⟨r2, sx⟩ := rs
          obtain ⟨hsx, hlt, hget2, hner⟩ := nextRune_inv hnx
          subst hsx
          simp only [hnx] at h
          by_cases hstar : r2 = '*'
          · rw [if_pos hstar] at h
            by_cases hrp : Scanner.peek ⟨f, m + 1, m + 1 + 1⟩ = ')'
            · rw [if_pos hrp] at h
              have hlt2 : m + 1 + 1 < f.length := by
                by_contra hcon
                rw [show Scanner.peek ⟨f, m + 1, m + 1 + 1⟩ =
                  f.getD (m + 1 + 1) runeError from rfl,
                  List.getD_eq_default f runeError (by omega)] at hrp
                exact absurd hrp (by decide)
              have hrp' : f.getD (m + 1 + 1) runeError = ')' := hrp
              have hnx2 : Scanner.nextRune ⟨f, m + 1, m + 1 + 1⟩ =
                  some (')', ⟨f, m + 1 + 1, m + 1 + 1 + 1⟩) := by
                have := nextRune_of_getD (c := m + 1) hlt2
                  (by rw [hrp']; decide)
                rwa [hrp'] at this
              simp only [hnx2] at h
              simp only [Option.some.injEq, Prod.mk.injEq] at h
              obtain ⟨h4, h5⟩ := h
              subst h4; subst h5
              refine ⟨rfl, by show 1 ≤ m + 1 + 1 + 1; omega, Or.inl ?_⟩
              rw [parseOpSwitch, if_neg h1, if_neg h2, if_pos h3,
                if_neg (Bool.false_ne_true)]
              simp only [nextRune_emb pre post hnx]
              rw [if_pos hstar, show m + 1 + pre.length + 1 = m + 1 + 1 + pre.length from by omega]
              have hpe : Scanner.peek ⟨pre ++ f ++ post, m + 1 + pre.length,
                  m + 1 + 1 + pre.length⟩ = ')' := by
                have := peek_emb pre post (m + 1)
                  (m + 1 + pre.length) hlt2
                rw [this]
                exact hrp
              rw [if_pos hpe]
              simp only [nextRune_emb pre post hnx2]
              rw [show m + 1 + 1 + pre.length + 1 = m + 1 + 1 + 1 + pre.length from by omega]
            · rw [if_neg hrp] at h
              rw [back_of_pos (show m + 1 ≠ 0 from by omega)] at h
              simp only [Option.some.injEq, Prod.mk.injEq] at h
              obtain ⟨h4, h5⟩ := h
              subst h4; subst h5
              by_cases hlt2 : m + 1 + 1 < f.length
              · refine ⟨rfl, by show 1 ≤ m + 1; omega, Or.inl ?_⟩
                rw [parseOpSwitch, if_neg h1, if_neg h2, if_pos h3,
                  if_neg (Bool.false_ne_true)]
                simp only [nextRune_emb pre post hnx]
                rw [if_pos hstar, show m + 1 + pre.length + 1 = m + 1 + 1 + pre.length from by omega]
                have hpe : Scanner.peek ⟨pre ++ f ++ post, m + 1 + pre.length,
                    m + 1 + 1 + pre.length⟩ =
                    Scanner.peek ⟨f, m + 1, m + 1 + 1⟩ := by
                  have := peek_emb pre post (m + 1)
                    (m + 1 + pre.length) hlt2
                  exact this
                rw [if_neg (by rw [hpe]; exact hrp),
                  back_of_pos (show m + 1 + pre.length ≠ 0 from by omega),
                  show m + 1 + pre.length - 1 = m + 1 - 1 + pre.length from by omega]

              · refine ⟨rfl, by show 1 ≤ m + 1; omega, Or.inr ⟨rfl, fun k => ?_⟩⟩
                exact pvLoopF_none_B2 hlt (by omega) (hstar ▸ hget2)
                  (Or.inl (by omega)) k m
          · rw [if_neg hstar] at h
            rw [back_of_pos (show m + 1 ≠ 0 from by omega)] at h
            simp only [Option.some.injEq, Prod.mk.injEq] at h
            obtain ⟨h4, h5⟩ := h
            subst h4; subst h5
            refine ⟨rfl, by show 1 ≤ m + 1; omega, Or.inl ?_⟩
            rw [parseOpSwitch, if_neg h1, if_neg h2, if_pos h3,
              if_neg (Bool.false_ne_true)]
            simp only [nextRune_emb pre post hnx]
            rw [if_neg hstar, back_of_pos (show m + 1 + pre.length ≠ 0 from by omega),
              show m + 1 + pre.length - 1 = m + 1 - 1 + pre.length from by omega]

      · by_cases h4 : r = '~'
        · rw [parseOpSwitch, if_neg h1, if_neg h2, if_neg h3, if_pos h4] at h
          cases hnx : Scanner.nextRune ⟨f, m, m + 1⟩ with
          | none => simp [hnx] at h
          | some rs =>
            obtain ⟨r2, sx⟩ := rs
            obtain ⟨hsx, hlt, hget2, hner⟩ := nextRune_inv hnx
            subst hsx
            simp only [hnx] at h
            by_cases h5 : r2 = '='
            · rw [if_pos h5] at h
              simp only [Option.some.injEq, Prod.mk.injEq] at h
              obtain ⟨h6, h7⟩ := h
              subst h6; subst h7
              refine ⟨rfl, by show 1 ≤ m + 1 + 1; omega, Or.inl ?_⟩
              rw [parseOpSwitch, if_neg h1, if_neg h2, if_neg h3, if_pos h4]
              simp only [nextRune_emb pre post hnx]
              rw [if_pos h5, show m + 1 + pre.length + 1 = m + 1 + 1 + pre.length from by omega]
            · rw [if_neg h5] at h
              exact absurd h (by simp)
        · rw [parseOpSwitch, if_neg h1, if_neg h2, if_neg h3, if_neg h4] at h
          exact absurd h (by simp)

/-- Shift lemma for `parseAttribute`: a successful standalone run is
either simulated by the embedded scanner, or stopped in the equality
branch in a state from which `parseValue` must fail. -/
lemma parseAttributeF_shift (pre post : List Char) {fuel : Nat} {f : List Char}
    {c n : Nat} {st2 : FilterParserSt} {s2 : Scanner}
    (h : parseAttributeF fuel ⟨f, c, n⟩ = some (st2, s2)) (hn : 1 ≤ n) :
    s2.input = f ∧ 1 ≤ s2.next ∧
      (parseAttributeF fuel ⟨pre ++ f ++ post, c + pre.length, n + pre.length⟩ =
          some (st2, ⟨pre ++ f ++ post, s2.curr + pre.length, s2.next + pre.length⟩)
        ∨ (st2.type = tagFilterEquality ∧ ∀ k, parseValueLoopF k s2 = none)) := by
  cases hattr : parseAttrF fuel ⟨f, c, n⟩ with
  | none => simp [parseAttributeF, hattr] at h
  | some p =>
    obtain ⟨name, s1⟩ := p
    obtain ⟨v, hv, hs1, hlt, hembA⟩ := parseAttrF_shift pre post hattr hn
    subst hs1
    simp only [parseAttributeF, hattr] at h
    cases hnx : Scanner.nextRune ⟨f, n + v.length - 1, n + v.length⟩ with
    | none => simp [hnx] at h
    | some rs =>
      obtain ⟨r, sx⟩ := rs
      obtain ⟨hsx, hlt2, hget, hner⟩ := nextRune_inv hnx
      subst hsx
      simp only [hnx] at h
      by_cases hcolon : r = ':'
      · rw [if_pos hcolon] at h
        cases hrule : parseRuleF fuel ⟨f, n + v.length, n + v.length + 1⟩ with
        | none => simp [hrule] at h
        | some p2 =>
          obtain ⟨⟨rule, dn⟩, s3⟩ := p2
          obtain ⟨fi, cc, nn⟩ := s3
          obtain ⟨hfi, hcc1, hcclt, hnn, hembR⟩ := parseRuleF_shift pre post hrule
            (by omega)
          simp only at hfi hcc1 hcclt hnn hembR
          subst fi
          subst hnn
          simp only [hrule] at h
          have hcurr : Scanner.currRune
              ⟨pre ++ f ++ post, cc + pre.length, cc + 1 + pre.length⟩ =
              Scanner.currRune ⟨f, cc, cc + 1⟩ :=
            currRune_emb pre post hcc1 hcclt
          by_cases hcol2 : Scanner.currRune ⟨f, cc, cc + 1⟩ = ':'
          · rw [if_pos hcol2] at h
            cases hnx2 : Scanner.nextRune ⟨f, cc, cc + 1⟩ with
            | none =>
              rw [hnx2] at h
              simp [parseOpSwitch_char0] at h
            | some rs2 =>
              obtain ⟨r2, sy⟩ := rs2
              obtain ⟨hsy, hlt3, hget2, hner2⟩ := nextRune_inv hnx2
              subst hsy
              simp only [hnx2] at h
              obtain ⟨hi, hnext, hemb⟩ := parseOpSwitch_shift_true pre post h
                (by omega)
              refine ⟨hi, hnext, Or.inl ?_⟩
              simp only [parseAttributeF, hembA, nextRune_emb pre post hnx]
              rw [if_pos hcolon,
                show n + v.length + pre.length + 1 = n + v.length + 1 + pre.length
                  from by omega]
              simp only [hembR, hcurr]
              rw [if_pos hcol2]
              simp only [nextRune_emb pre post hnx2]
              rw [show cc + 1 + pre.length + 1 = cc + 1 + 1 + pre.length from by omega]
              exact hemb
          · rw [if_neg hcol2] at h
            subst hcolon
            rw [parseOpSwitch, if_neg (by decide), if_neg (by decide),
              if_neg (by decide), if_neg (by decide)] at h
            exact absurd h (by simp)
      · rw [if_neg hcolon] at h
        obtain ⟨hi, hnext, hcases⟩ := parseOpSwitch_shift_false pre post h
          (by omega) hlt2 hget hner
        refine ⟨hi, hnext, ?_⟩
        cases hcases with
        | inl hemb =>
          refine Or.inl ?_
          simp only [parseAttributeF, hembA, nextRune_emb pre post hnx]
          rw [if_neg hcolon,
            show n + v.length + pre.length + 1 = n + v.length + 1 + pre.length
              from by omega]
          exact hemb
        | inr hbad => exact Or.inr hbad

/-- Shift lemma for the `parseValue` scan loop. -/
lemma parseValueLoopF_shift (pre post : List Char) : ∀ {fuel : Nat} {f : List Char}
    {c n : Nat} {vs : List String} {st' : Scanner},
    parseValueLoopF fuel ⟨f, c, n⟩ = some (vs, st') → 1 ≤ n →
    st'.input = f ∧ 1 ≤ st'.curr ∧ st'.curr < f.length ∧ st'.next = st'.curr + 1 ∧
      parseValueLoopF fuel ⟨pre ++ f ++ post, c + pre.length, n + pre.length⟩ =
        some (vs, ⟨pre ++ f ++ post, st'.curr + pre.length, st'.next + pre.length⟩) := by
  intro fuel
  induction fuel with
  | zero =>
    intro f c n vs st' h hn
    exact absurd h (by rw [parseValueLoopF]; simp)
  | succ fuel ih =>
    intro f c n vs st' h hn
    cases hscan : scanUntilF (fun _ => true) (fun r => r = '*' || r = ')') fuel
        ⟨f, c, n⟩ with
    | none => simp [parseValueLoopF, hscan] at h
    | some p =>
      obtain ⟨v, s1⟩ := p
      obtain ⟨hs1, hlt, hembS⟩ := scanUntilF_shift pre post (by decide) hscan
      subst hs1
      simp only [parseValueLoopF, hscan] at h
      have hcurr : Scanner.currRune ⟨pre ++ f ++ post, n + v.length + pre.length,
          n + v.length + 1 + pre.length⟩ =
          Scanner.currRune ⟨f, n + v.length, n + v.length + 1⟩ :=
        currRune_emb pre post (by omega) hlt
      by_cases hpar : Scanner.currRune ⟨f, n + v.length, n + v.length + 1⟩ = ')'
      · rw [if_pos hpar] at h
        simp only [Option.some.injEq, Prod.mk.injEq] at h
        obtain ⟨h1, h2⟩ := h
        subst h1; subst h2
        refine ⟨rfl, by show 1 ≤ n + v.length; omega, hlt, rfl, ?_⟩
        simp only [parseValueLoopF, hembS, hcurr]
        rw [if_pos hpar]
      · rw [if_neg hpar] at h
        cases hrec : parseValueLoopF fuel ⟨f, n + v.length, n + v.length + 1⟩ with
        | none => rw [hrec] at h; exact absurd h (by simp)
        | some p2 =>
          obtain ⟨vs2, s2⟩ := p2
          obtain ⟨hi2, hc2, hlt2, hn2, hemb2⟩ := ih hrec (by omega)
          simp only [hrec, Option.some.injEq, Prod.mk.injEq] at h
          obtain ⟨h1, h2⟩ := h
          subst h1; subst h2
          refine ⟨hi2, hc2, hlt2, hn2, ?_⟩
          simp only [parseValueLoopF, hembS, hcurr]
          rw [if_neg hpar]
          simp only [hemb2]

/-- Shift lemma for `parseValue`. -/
lemma parseValueF_shift (pre post : List Char) {fuel : Nat} {st : FilterParserSt}
    {f : List Char} {c n : Nat} {st2 : FilterParserSt} {s2 : Scanner}
    (h : parseValueF fuel st ⟨f, c, n⟩ = some (st2, s2)) (hn : 1 ≤ n) :
    s2.input = f ∧ 1 ≤ s2.next ∧
      parseValueF fuel st ⟨pre ++ f ++ post, c + pre.length, n + pre.length⟩ =
        some (st2, ⟨pre ++ f ++ post, s2.curr + pre.length, s2.next + pre.length⟩) := by
  cases hloop : parseValueLoopF fuel ⟨f, c, n⟩ with
  | none => simp [parseValueF, hloop] at h
  | some p =>
    obtain ⟨vs, s1⟩ := p
    obtain ⟨hi1, hc1, hlt1, hn1, hembL⟩ := parseValueLoopF_shift pre post hloop hn
    obtain ⟨fi, cc, nn⟩ := s1
    simp only at hi1 hc1 hlt1 hn1 hembL
    subst fi; subst nn
    simp only [parseValueF, hloop] at h
    simp only [parseValueF, hembL]
    by_cases hA : st.type = tagFilterGreaterEq ∨ st.type = tagFilterLesserEq ∨
        st.type = tagFilterApprox ∨ st.type = tagFilterExtensible
    · rw [if_pos hA] at h
      by_cases hB : (st.values ++ vs).length > 1
      · rw [if_pos hB] at h
        exact absurd h (by simp)
      · rw [if_neg hB] at h
        simp only [Option.some.injEq, Prod.mk.injEq] at h
        obtain ⟨h1, h2⟩ := h
        subst h1; subst h2
        exact ⟨rfl, by show 1 ≤ cc + 1; omega, by rw [if_pos hA, if_neg hB]⟩
    · rw [if_neg hA] at h
      by_cases hC : st.type = tagFilterEquality ∧ (st.values ++ vs).length > 1
      · rw [if_pos hC] at h
        simp only [Option.some.injEq, Prod.mk.injEq] at h
        obtain ⟨h1, h2⟩ := h
        subst h1; subst h2
        exact ⟨rfl, by show 1 ≤ cc + 1; omega, by rw [if_neg hA, if_pos hC]⟩
      · rw [if_neg hC] at h
        simp only [Option.some.injEq, Prod.mk.injEq] at h
        obtain ⟨h1, h2⟩ := h
        subst h1; subst h2
        exact ⟨rfl, by show 1 ≤ cc + 1; omega, by rw [if_neg hA, if_neg hC]⟩

/-- Shift lemma for `parseItem`: the bad stopping states of
`parseAttribute` are ruled out because `parseValue` fails from them, so
a successful `parseItem` is always simulated by the embedded scanner. -/
lemma parseItemF_shift (pre post : List Char) {fuel : Nat} {f : List Char}
    {c n : Nat} {t : Filter} {s3 : Scanner}
    (h : parseItemF fuel ⟨f, c, n⟩ = some (t, s3)) (hn : 1 ≤ n) :
    s3.input = f ∧ 1 ≤ s3.next ∧
      parseItemF fuel ⟨pre ++ f ++ post, c + pre.length, n + pre.length⟩ =
        some (t, ⟨pre ++ f ++ post, s3.curr + pre.length, s3.next + pre.length⟩) := by
  cases hattr : parseAttributeF fuel ⟨f, c, n⟩ with
  | none => simp [parseItemF, hattr] at h
  | some p =>
    obtain ⟨st, s1⟩ := p
    obtain ⟨hi1, hn1, hcase⟩ := parseAttributeF_shift pre post hattr hn
    simp only [parseItemF, hattr] at h
    by_cases hpres : st.type = tagFilterPresent
    · rw [if_pos hpres] at h
      cases hbuild : buildF st with
      | none => rw [hbuild] at h; exact absurd h (by simp)
      | some ft =>
        simp only [hbuild, Option.some.injEq, Prod.mk.injEq] at h
        obtain ⟨h1, h2⟩ := h
        subst h1; subst h2
        cases hcase with
        | inr hbad =>
          rw [hbad.1] at hpres
          exact absurd hpres (by decide)
        | inl hemb =>
          refine ⟨hi1, hn1, ?_⟩
          simp only [parseItemF, hemb]
          rw [if_pos hpres]
          simp only [hbuild]
    · rw [if_neg hpres] at h
      cases hval : parseValueF fuel st s1 with
      | none => rw [hval] at h; exact absurd h (by simp)
      | some p2 =>
        obtain ⟨st2, s2⟩ := p2
        cases hcase with
        | inr hbad =>
          rw [parseValueF] at hval
          rw [hbad.2 fuel] at hval
          exact absurd hval (by simp)
        | inl hemb =>
          obtain ⟨fi, cc, nn⟩ := s1
          simp only at hi1 hn1 hemb
          subst fi
          obtain ⟨hi2, hn2, hembV⟩ := parseValueF_shift pre post hval hn1
          simp only [hval] at h
          cases hbuild : buildF st2 with
          | none => rw [hbuild] at h; exact absurd h (by simp)
          | some ft =>
            simp only [hbuild, Option.some.injEq, Prod.mk.injEq] at h
            obtain ⟨h1, h2⟩ := h
            subst h1; subst h2
            refine ⟨hi2, hn2, ?_⟩
            simp only [parseItemF, hemb]
            rw [if_neg hpres]
            simp only [hembV, hbuild]

/-- Simulation ("locality") lemma for `parseFilter`/`parseList`: a
successful standalone parse of `f` is reproduced verbatim by a scanner
whose input embeds `f` between `pre` and `post`, at the shifted
position; the parse never reads past the end of `f`. -/
lemma parse_shift (pre post : List Char) : ∀ fuel : Nat,
    (∀ {f : List Char} {c n : Nat} {t : Filter} {st' : Scanner},
      parseFilterF fuel ⟨f, c, n⟩ = some (t, st') →
      st'.input = f ∧ 1 ≤ st'.next ∧
        parseFilterF fuel ⟨pre ++ f ++ post, c + pre.length, n + pre.length⟩ =
          some (t, ⟨pre ++ f ++ post, st'.curr + pre.length,
            st'.next + pre.length⟩)) ∧
    (∀ {f : List Char} {c n : Nat} {fs : List Filter} {st' : Scanner},
      parseListF fuel ⟨f, c, n⟩ = some (fs, st') →
      st'.input = f ∧ 1 ≤ st'.next ∧
        parseListF fuel ⟨pre ++ f ++ post, c + pre.length, n + pre.length⟩ =
          some (fs, ⟨pre ++ f ++ post, st'.curr + pre.length,
            st'.next + pre.length⟩)) := by
  intro fuel
  induction fuel with
  | zero =>
    exact ⟨fun h => Option.noConfusion h, fun h => Option.noConfusion h⟩
  | succ fuel ih =>
    obtain ⟨ihF, ihL⟩ := ih
    constructor
    · intro f c n t st' h
      cases hnx : Scanner.nextRune ⟨f, c, n⟩ with
      | none => simp [parseFilterF, hnx] at h
      | some rs =>
        obtain ⟨r, s1⟩ := rs
        obtain ⟨hs1, hlt, hget, hner⟩ := nextRune_inv hnx
        subst hs1
        simp only [parseFilterF, hnx] at h
        by_cases hr : r = '('
        · rw [if_pos hr] at h
          cases hnx2 : Scanner.nextRune ⟨f, n, n + 1⟩ with
          | none => simp [hnx2] at h
          | some rs2 =>
            obtain ⟨r2, s2⟩ := rs2
            obtain ⟨hs2, hlt2, hget2, hner2⟩ := nextRune_inv hnx2
            subst hs2
            simp only [hnx2] at h
            by_cases hamp : r2 = '&'
            · rw [if_pos hamp] at h
              cases hlist : parseListF fuel ⟨f, n + 1, n + 1 + 1⟩ with
              | none => simp [hlist] at h
              | some p =>
                obtain ⟨fs, s3⟩ := p
                obtain ⟨hi3, hn3, hembL⟩ := ihL hlist
                simp only [hlist, Option.some.injEq, Prod.mk.injEq] at h
                obtain ⟨h1, h2⟩ := h
                subst h1; subst h2
                refine ⟨hi3, hn3, ?_⟩
                simp only [parseFilterF, nextRune_emb pre post hnx]
                rw [if_pos hr,
                  show n + pre.length + 1 = n + 1 + pre.length from by omega]
                simp only [nextRune_emb pre post hnx2]
                rw [if_pos hamp,
                  show n + 1 + pre.length + 1 = n + 1 + 1 + pre.length from by omega]
                simp only [hembL]
            · rw [if_neg hamp] at h
              by_cases hpipe : r2 = '|'
              · rw [if_pos hpipe] at h
                cases hlist : parseListF fuel ⟨f, n + 1, n + 1 + 1⟩ with
                | none => simp [hlist] at h
                | some p =>
                  obtain ⟨fs, s3⟩ := p
                  obtain ⟨hi3, hn3, hembL⟩ := ihL hlist
                  simp only [hlist, Option.some.injEq, Prod.mk.injEq] at h
                  obtain ⟨h1, h2⟩ := h
                  subst h1; subst h2
                  refine ⟨hi3, hn3, ?_⟩
                  simp only [parseFilterF, nextRune_emb pre post hnx]
                  rw [if_pos hr,
                    show n + pre.length + 1 = n + 1 + pre.length from by omega]
                  simp only [nextRune_emb pre post hnx2]
                  rw [if_neg hamp, if_pos hpipe,
                    show n + 1 + pre.length + 1 = n + 1 + 1 + pre.length from by omega]
                  simp only [hembL]
              · rw [if_neg hpipe] at h
                by_cases hbang : r2 = '!'
                · rw [if_pos hbang] at h
                  cases hfil : parseFilterF fuel ⟨f, n + 1, n + 1 + 1⟩ with
                  | none => simp [hfil] at h
                  | some p =>
                    obtain ⟨f0, s3⟩ := p
                    obtain ⟨hi3, hn3, hembF⟩ := ihF hfil
                    simp only [hfil, Option.some.injEq, Prod.mk.injEq] at h
                    obtain ⟨h1, h2⟩ := h
                    subst h1; subst h2
                    refine ⟨hi3, hn3, ?_⟩
                    simp only [parseFilterF, nextRune_emb pre post hnx]
                    rw [if_pos hr,
                      show n + pre.length + 1 = n + 1 + pre.length from by omega]
                    simp only [nextRune_emb pre post hnx2]
                    rw [if_neg hamp, if_neg hpipe, if_pos hbang,
                      show n + 1 + pre.length + 1 = n + 1 + 1 + pre.length from
                        by omega]
                    simp only [hembF]
                · rw [if_neg hbang] at h
                  by_cases hparen : r2 = ')'
                  · rw [if_pos hparen] at h
                    simp only [Option.some.injEq, Prod.mk.injEq] at h
                    obtain ⟨h1, h2⟩ := h
                    subst h1; subst h2
                    refine ⟨rfl, by show 1 ≤ n + 1 + 1; omega, ?_⟩
                    simp only [parseFilterF, nextRune_emb pre post hnx]
                    rw [if_pos hr,
                      show n + pre.length + 1 = n + 1 + pre.length from by omega]
                    simp only [nextRune_emb pre post hnx2]
                    rw [if_neg hamp, if_neg hpipe, if_neg hbang, if_pos hparen,
                      show n + 1 + pre.length + 1 = n + 1 + 1 + pre.length from
                        by omega]
                  · rw [if_neg hparen] at h
                    rw [back_of_pos (show n + 1 ≠ 0 from by omega)] at h
                    obtain ⟨hi3, hn3, hembI⟩ := parseItemF_shift pre post h
                      (by omega)
                    refine ⟨hi3, hn3, ?_⟩
                    simp only [parseFilterF, nextRune_emb pre post hnx]
                    rw [if_pos hr,
                      show n + pre.length + 1 = n + 1 + pre.length from by omega]
                    simp only [nextRune_emb pre post hnx2]
                    rw [if_neg hamp, if_neg hpipe, if_neg hbang, if_neg hparen,
                      back_of_pos (show n + 1 + pre.length ≠ 0 from by omega),
                      show n + 1 + pre.length - 1 = n + pre.length from by omega]
                    exact hembI
        · rw [if_neg hr] at h
          exact absurd h (by simp)
    · intro f c n fs st' h
      cases hfil : parseFilterF fuel ⟨f, c, n⟩ with
      | none => simp [parseListF, hfil] at h
      | some p =>
        obtain ⟨f0, s1⟩ := p
        obtain ⟨hi1, hn1, hembF⟩ := ihF hfil
        obtain ⟨fi, cc, nn⟩ := s1
        simp only at hi1 hn1 hembF
        subst fi
        simp only [parseListF, hfil] at h
        by_cases hpk : Scanner.peek ⟨f, cc, nn⟩ = ')'
        · rw [if_pos hpk] at h
          have hnnlt : nn < f.length := by
            by_contra hge
            have : Scanner.peek ⟨f, cc, nn⟩ = runeError := by
              show f.getD nn runeError = runeError
              exact List.getD_eq_default f runeError (by omega)
            rw [this] at hpk
            exact absurd hpk (by decide)
          have hpk' : f.getD nn runeError = ')' := hpk
          have hnxN : Scanner.nextRune ⟨f, cc, nn⟩ =
              some (')', ⟨f, nn, nn + 1⟩) := by
            have := nextRune_of_getD (c := cc) hnnlt (by rw [hpk']; decide)
            rwa [hpk'] at this
          simp only [hnxN, Option.some.injEq, Prod.mk.injEq] at h
          obtain ⟨h1, h2⟩ := h
          subst h1; subst h2
          refine ⟨rfl, by show 1 ≤ nn + 1; omega, ?_⟩
          simp only [parseListF, hembF]
          rw [show Scanner.peek ⟨pre ++ f ++ post, cc + pre.length, nn + pre.length⟩ =
            Scanner.peek ⟨f, cc, nn⟩ from
            peek_emb pre post cc (cc + pre.length) hnnlt]
          rw [if_pos hpk]
          simp only [nextRune_emb pre post hnxN]
          rw [show nn + pre.length + 1 = nn + 1 + pre.length from by omega]
        · rw [if_neg hpk] at h
          cases hrec : parseListF fuel ⟨f, cc, nn⟩ with
          | none => rw [hrec] at h; exact absurd h (by simp)
          | some p2 =>
            obtain ⟨fs2, s2⟩ := p2
            have hnnlt : nn < f.length := by
              by_contra hge
              have hend : Scanner.nextRune ⟨f, cc, nn⟩ = none :=
                nextRune_at_end (by omega)
              cases fuel with
              | zero => exact Option.noConfusion hrec
              | succ k =>
                rw [parseListF, parseFilterF_none_of_end hend k] at hrec
                exact Option.noConfusion hrec
            obtain ⟨hi2, hn2, hembL⟩ := ihL hrec
            simp only [hrec, Option.some.injEq, Prod.mk.injEq] at h
            obtain ⟨h1, h2⟩ := h
            subst h1; subst h2
            refine ⟨hi2, hn2, ?_⟩
            simp only [parseListF, hembF]
            rw [show Scanner.peek ⟨pre ++ f ++ post, cc + pre.length,
                nn + pre.length⟩ = Scanner.peek ⟨f, cc, nn⟩ from
              peek_emb pre post cc (cc + pre.length) hnnlt]
            rw [if_neg hpk]
            simp only [hembL]

/-- `parseFilter` never reads the `curr` field of its scanner (only
`Next`, which depends on `input`/`next` alone), so the entry value of
`curr` is irrelevant. -/
lemma parseFilterF_curr (k : Nat) (f : List Char) (c c' n : Nat) :
    parseFilterF k ⟨f, c, n⟩ = parseFilterF k ⟨f, c', n⟩ := by
  cases k with
  | zero => rfl
  | succ k => rfl

/-- C6, amended.  Parsing `"(!(!f))"` does NOT return the same tree as
parsing `f`: the parser's `bang` branch applies the `Not` constructor
function, which always wraps, so the result is the double-`not` wrapping
`not(not(parse(f)))` of the tree parsed from `f` (first conjunct, proved
via the embedding simulation).  At the tree level, the `Not` method
unwraps one explicit `not` node (second conjunct), and `not(not(t)) = t`
holds for every tree `t` that is not itself a `not` node (third
conjunct); it fails for `not` nodes, see the counterexample. -/
theorem C6_double_negation_amended :
    (∀ (f : List Char) (t : Filter) (k : Nat) (sf : Scanner),
      parseFilterF k (scan f) = some (t, sf) →
      ∃ sg : Scanner,
        parseFilterF (k + 2)
          (scan ('(' :: '!' :: '(' :: '!' :: (f ++ [')', ')']))) =
          some (.fnot (.fnot t), sg)) ∧
    (∀ t : Filter, (Filter.fnot t).Not = t) ∧
    (∀ t : Filter, (∀ u, t ≠ .fnot u) → t.Not.Not = t) := by
  refine ⟨?_, fun t => rfl, ?_⟩
  · intro f t k sf h
    have h' : parseFilterF k ⟨f, 0, 0⟩ = some (t, sf) := h
    obtain ⟨hi, hnx1, hemb⟩ := (parse_shift ['(', '!', '(', '!'] [')', ')'] k).1 h'
    have hemb' : parseFilterF k ⟨['(', '!', '(', '!'] ++ f ++ [')', ')'], 4, 4⟩ =
        some (t, ⟨['(', '!', '(', '!'] ++ f ++ [')', ')'],
          sf.curr + 4, sf.next + 4⟩) := by
      simpa using hemb
    have hn0 : Scanner.nextRune ⟨['(', '!', '(', '!'] ++ f ++ [')', ')'], 0, 0⟩ =
        some ('(', ⟨['(', '!', '(', '!'] ++ f ++ [')', ')'], 0, 1⟩) :=
      nextRune_of_drop rfl (by decide)
    have hn1 : Scanner.nextRune ⟨['(', '!', '(', '!'] ++ f ++ [')', ')'], 0, 1⟩ =
        some ('!', ⟨['(', '!', '(', '!'] ++ f ++ [')', ')'], 1, 2⟩) :=
      nextRune_of_drop rfl (by decide)
    have hn2 : Scanner.nextRune ⟨['(', '!', '(', '!'] ++ f ++ [')', ')'], 1, 2⟩ =
        some ('(', ⟨['(', '!', '(', '!'] ++ f ++ [')', ')'], 2, 3⟩) :=
      nextRune_of_drop rfl (by decide)
    have hn3 : Scanner.nextRune ⟨['(', '!', '(', '!'] ++ f ++ [')', ')'], 2, 3⟩ =
        some ('!', ⟨['(', '!', '(', '!'] ++ f ++ [')', ')'], 3, 4⟩) :=
      nextRune_of_drop rfl (by decide)
    have hin : parseFilterF k ⟨['(', '!', '(', '!'] ++ f ++ [')', ')'], 3, 4⟩ =
        some (t, ⟨['(', '!', '(', '!'] ++ f ++ [')', ')'],
          sf.curr + 4, sf.next + 4⟩) := by
      rw [parseFilterF_curr k _ 3 4 4]
      exact hemb'
    have hmid := parseFilterF_bang hn2 hn3 hin
    have hout := parseFilterF_bang hn0 hn1 hmid
    refine ⟨⟨['(', '!', '(', '!'] ++ f ++ [')', ')'], sf.curr + 4, sf.next + 4⟩, ?_⟩
    show parseFilterF (k + 2)
        ⟨'(' :: '!' :: '(' :: '!' :: (f ++ [')', ')']), 0, 0⟩ = _
    rw [show ('(' :: '!' :: '(' :: '!' :: (f ++ [')', ')'])) =
      ['(', '!', '(', '!'] ++ f ++ [')', ')'] from by simp]
    rw [show k + 2 = k + 1 + 1 from rfl]
    exact hout
  · intro t ht
    cases t with
    | null => rfl
    | cmp a b c => rfl
    | rel a b => rfl
    | fnot u => exact absurd rfl (ht u)
    | fpresent a => rfl
    | sub a b c d => rfl
    | ext a b c d => rfl

/-- C6 witness: parsing `"(a=b)"` succeeds, and wrapping it as
`"(!(!(a=b)))"` parses to the double-`not` wrapping of the same tree;
the tree-level `not∘not` identity holds at the non-`not` tree
`equal(a,b)`. -/
theorem C6_double_negation_witness :
    (∃ sg : Scanner,
      parseFilterF (10 + 2)
        (scan ('(' :: '!' :: '(' :: '!' :: ("(a=b)".data ++ [')', ')']))) =
        some (.fnot (.fnot (Equal "a" "b")), sg)) ∧
    (Equal "a" "b").Not.Not = Equal "a" "b" :=
  ⟨C6_double_negation_amended.1 "(a=b)".data (Equal "a" "b") 10
      ⟨"(a=b)".data, 4, 5⟩ rfl,
    C6_double_negation_amended.2.2 (Equal "a" "b")
      (fun u h => Filter.noConfusion h)⟩

/-- C6 counterexample: `ParseFilter("(!(!(a=b)))")` is the
double-`not` tree, not the tree parsed from `"(a=b)"`; and the `Not`
method applied twice to the double-`not` tree `not(not(present(a)))`
strips both `not` nodes instead of returning the tree unchanged. -/
theorem C6_double_negation_counterexample :
    ParseFilterRunes 30 "(!(!(a=b)))".data ≠ ParseFilterRunes 30 "(a=b)".data ∧
    (Filter.fnot (Filter.fnot (Present "a"))).Not.Not ≠
      Filter.fnot (Filter.fnot (Present "a")) := by
  constructor
  · intro h
    rw [show ParseFilterRunes 30 "(!(!(a=b)))".data =
        some (.fnot (.fnot (Equal "a" "b"))) from rfl,
      show ParseFilterRunes 30 "(a=b)".data = some (Equal "a" "b") from rfl] at h
    exact Filter.noConfusion (Option.some.inj h)
  · intro h
    exact Filter.noConfusion h

/-! ## `ParseFilter` at the byte level (filter.go, `utf8.ValidString`) -/

/-- Decode one UTF-8 encoded rune from a byte list, following Go's
`unicode/utf8` acceptance tables (`first` / `acceptRanges`): overlong
encodings, surrogates and values above U+10FFFF are rejected. -/
def utf8Step (bs : List Nat) : Option (Nat × List Nat) :=
  match bs with
  | [] => none
  | b0 :: r1 =>
    if b0 < 0x80 then some (b0, r1)
    else if 0xC2 ≤ b0 ∧ b0 ≤ 0xDF then
      match r1 with
      | b1 :: r2 =>
        if 0x80 ≤ b1 ∧ b1 ≤ 0xBF then
          some ((b0 % 0x20) * 0x40 + b1 % 0x40, r2)
        else none
      | [] => none
    else if 0xE0 ≤ b0 ∧ b0 ≤ 0xEF then
      match r1 with
      | b1 :: b2 :: r2 =>
        let lo : Nat := if b0 = 0xE0 then 0xA0 else 0x80
        let hi : Nat := if b0 = 0xED then 0x9F else 0xBF
        if (lo ≤ b1 ∧ b1 ≤ hi) ∧ (0x80 ≤ b2 ∧ b2 ≤ 0xBF) then
          some ((b0 % 0x10) * 0x1000 + (b1 % 0x40) * 0x40 + b2 % 0x40, r2)
        else none
      | _ => none
    else if 0xF0 ≤ b0 ∧ b0 ≤ 0xF4 then
      match r1 with
      | b1 :: b2 :: b3 :: r2 =>
        let lo : Nat := if b0 = 0xF0 then 0x90 else 0x80
        let hi : Nat := if b0 = 0xF4 then 0x8F else 0xBF
        if (lo ≤ b1 ∧ b1 ≤ hi) ∧ (0x80 ≤ b2 ∧ b2 ≤ 0xBF) ∧
            (0x80 ≤ b3 ∧ b3 ≤ 0xBF) then
          some ((b0 % 0x8) * 0x40000 + (b1 % 0x40) * 0x1000 +
            (b2 % 0x40) * 0x40 + b3 % 0x40, r2)
        else none
      | _ => none
    else none

/-- `utf8.ValidString` on the byte sequence. -/
def utf8ValidF : Nat → List Nat → Bool
  | _, [] => true
  | 0, _ => false
  | fuel + 1, bs =>
    match utf8Step bs with
    | some (_, rest) => utf8ValidF fuel rest
    | none => false

def utf8Valid (bs : List Nat) : Bool := utf8ValidF bs.length bs

/-- Decode a byte sequence to runes; on a malformed prefix Go's
`DecodeRune` yields `RuneError` and advances one byte. -/
def utf8DecodeF : Nat → List Nat → List Char
  | _, [] => []
  | 0, _ => []
  | fuel + 1, bs =>
    match utf8Step bs with
    | some (r, rest) => Char.ofNat r :: utf8DecodeF fuel rest
    | none => runeError :: utf8DecodeF fuel (bs.drop 1)

def utf8Decode (bs : List Nat) : List Char := utf8DecodeF bs.length bs

inductive FilterParseErr where
  | invalidUtf8
  | parseFailed
deriving Repr, DecidableEq

/-- `ParseFilter` (filter.go) on the raw byte string: the empty string
short-circuits to `present(objectClass)`; a non-empty string failing
`utf8.ValidString` is rejected before the parser runs. -/
def ParseFilterBytes (fuel : Nat) (bs : List Nat) : Except FilterParseErr Filter :=
  if bs = [] then .ok (Present "objectClass")
  else if utf8Valid bs then
    match parseFilterF fuel (scan (utf8Decode bs)) with
    | some (t, _) => .ok t
    | none => .error .parseFailed
  else .error .invalidUtf8

/-- C10: `ParseFilter("")` returns `present(objectClass)` and no error,
and every non-empty byte string that is not valid UTF-8 is rejected with
an error before parsing. -/
theorem C10_parse_empty_and_invalid_utf8 :
    (∀ fuel, ParseFilterBytes fuel [] = .ok (Present "objectClass")) ∧
    (∀ fuel bs, bs ≠ [] → utf8Valid bs = false →
      ParseFilterBytes fuel bs = .error .invalidUtf8) := by
  constructor
  · intro fuel
    rfl
  · intro fuel bs hne hval
    rw [ParseFilterBytes, if_neg hne, if_neg (by simp [hval])]

/-- C10 witness: the single byte `0x80` (a bare continuation byte) is
non-empty and invalid UTF-8, and `ParseFilter` rejects it; the empty
string parses to `present(objectClass)`. -/
theorem C10_parse_empty_and_invalid_utf8_witness :
    ParseFilterBytes 5 [] = .ok (Present "objectClass") ∧
    ([0x80] ≠ ([] : List Nat) ∧ utf8Valid [0x80] = false) ∧
    ParseFilterBytes 5 [0x80] = .error .invalidUtf8 :=
  ⟨C10_parse_empty_and_invalid_utf8.1 5, ⟨by decide, by decide⟩,
    C10_parse_empty_and_invalid_utf8.2 5 [0x80] (by decide) (by decide)⟩

/-! ## DN exploder (dn.go)

`strings.Reader` over the rune sequence: `ReadRune` yields the rune at
the position (any rune sequence encodes to valid UTF-8, so decoding
never fails), `(0, io.EOF)` past the end; `UnreadRune` steps back, so a
read-unread pair is a peek that yields rune 0 at EOF. -/

structure RuneReader where
  input : List Char
  pos : Nat
deriving Repr, DecidableEq

def RuneReader.readRune (rr : RuneReader) : Option (Char × RuneReader) :=
  if rr.pos < rr.input.length then
    some (rr.input.getD rr.pos (Char.ofNat 0), ⟨rr.input, rr.pos + 1⟩)
  else none

/-- `ReadRune` followed by `UnreadRune`; rune 0 at EOF. -/
def RuneReader.peekRune (rr : RuneReader) : Char :=
  rr.input.getD rr.pos (Char.ofNat 0)

/-- `Len()`: bytes remaining; only its positivity is ever tested, and
runes remain exactly when bytes remain. -/
def RuneReader.len (rr : RuneReader) : Nat := rr.input.length - rr.pos

def acceptOID (r : Char) : Bool := isDigitC r || r = '.'

def acceptShortName (r : Char) : Bool := isLetterC r || r = '-'

/-- The read loop of `readAttrType` after the accept set is picked. -/
def readAttrTypeLoop (accept : Char → Bool) : Nat → RuneReader →
    Option (List Char × RuneReader)
  | 0, _ => none
  | fuel + 1, rr =>
    match rr.readRune with
    | none => none
    | some (r, rr1) =>
      if r = '=' then some ([], rr1)
      else if accept r then
        match readAttrTypeLoop accept fuel rr1 with
        | some (v, rr2) => some (r :: v, rr2)
        | none => none
      else none

/-- `readAttrType` (dn.go): the first rune picks the accept set —
digits continue as an OID (digits and dots), letters as a short name
(letters and minus); anything else is an error. -/
def readAttrTypeF (fuel : Nat) (rr : RuneReader) : Option (String × RuneReader) :=
  if isDigitC rr.peekRune then
    (readAttrTypeLoop acceptOID fuel rr).map (fun p => (⟨p.1⟩, p.2))
  else if isLetterC rr.peekRune then
    (readAttrTypeLoop acceptShortName fuel rr).map (fun p => (⟨p.1⟩, p.2))
  else none

/-- `readAttrValue` (dn.go): read until `,` or `+` (returned as `last`)
or the end of the input (`last` stays rune 0). -/
def readAttrValueLoop : Nat → RuneReader → Option (Char × List Char × RuneReader)
  | 0, _ => none
  | fuel + 1, rr =>
    if 0 < rr.len then
      match rr.readRune with
      | none => none
      | some (r, rr1) =>
        if r = ',' ∨ r = '+' then some (r, [], rr1)
        else
          match readAttrValueLoop fuel rr1 with
          | some (last, v, rr2) => some (last, r :: v, rr2)
          | none => none
    else some (Char.ofNat 0, [], rr)

structure DnAttr where
  name : String
  values : List String
deriving Repr, DecidableEq

/-- The inner `for` of `explodeDN`: one RDN, i.e. attributes joined by
`+`, ended by `,` or the end of the input. -/
def explodeRdnF : Nat → RuneReader → Option (List DnAttr × RuneReader)
  | 0, _ => none
  | fuel + 1, rr =>
    match readAttrTypeF fuel rr with
    | none => none
    | some (name, rr1) =>
      match readAttrValueLoop fuel rr1 with
      | none => none
      | some (last, v, rr2) =>
        if last = Char.ofNat 0 ∨ last = ',' then some ([⟨name, [⟨v⟩]⟩], rr2)
        else
          match explodeRdnF fuel rr2 with
          | none => none
          | some (attrs, rr3) => some (⟨name, [⟨v⟩]⟩ :: attrs, rr3)

/-- The outer `for` of `explodeDN`. -/
def explodeDNF : Nat → RuneReader → Option (List (List DnAttr))
  | 0, _ => none
  | fuel + 1, rr =>
    if 0 < rr.len then
      match explodeRdnF fuel rr with
      | none => none
      | some (attrs, rr2) =>
        match explodeDNF fuel rr2 with
        | none => none
        | some parts => some (attrs :: parts)
    else some []

/-- `Explode` (dn.go) on the rune sequence; rune sequences always
re-encode to valid UTF-8, so the `utf8.ValidString` guard passes. -/
def Explode (fuel : Nat) (s : List Char) : Option (List (List DnAttr)) :=
  explodeDNF fuel ⟨s, 0⟩

/-- The attribute-type shape claimed by the specification: a letter
followed by letters, digits and hyphens, or a digit followed by digits
and dots. -/
def dnTypeOkB : List Char → Bool
  | [] => false
  | c :: rest =>
    (isLetterC c && rest.all fun r => isLetterC r || isDigitC r || r = '-') ||
    (isDigitC c && rest.all fun r => isDigitC r || r = '.')

lemma readAttrTypeLoop_all {accept : Char → Bool} : ∀ {fuel : Nat} {rr : RuneReader}
    {v : List Char} {rr2 : RuneReader},
    readAttrTypeLoop accept fuel rr = some (v, rr2) → v.all accept = true := by
  intro fuel
  induction fuel with
  | zero => intro rr v rr2 h; exact Option.noConfusion h
  | succ fuel ih =>
    intro rr v rr2 h
    cases hrd : rr.readRune with
    | none => simp [readAttrTypeLoop, hrd] at h
    | some p =>
      obtain ⟨r, rr1⟩ := p
      simp only [readAttrTypeLoop, hrd] at h
      by_cases he : r = '='
      · rw [if_pos he] at h
        simp only [Option.some.injEq, Prod.mk.injEq] at h
        obtain ⟨h1, h2⟩ := h
        subst h1
        rfl
      · rw [if_neg he] at h
        by_cases hacc : accept r = true
        · rw [if_pos hacc] at h
          cases hrec : readAttrTypeLoop accept fuel rr1 with
          | none => rw [hrec] at h; exact absurd h (by simp)
          | some p2 =>
            obtain ⟨v2, rr3⟩ := p2
            simp only [hrec, Option.some.injEq, Prod.mk.injEq] at h
            obtain ⟨h1, h2⟩ := h
            subst h1
            simp [List.all_cons, hacc, ih hrec]
        · rw [if_neg hacc] at h
          exact absurd h (by simp)

/-- Soundness of `readAttrType`: an accepted attribute type has the
shape claimed by the specification (the code's short-name continuation
set, letters and minus, is a subset of the claimed one). -/
lemma readAttrTypeF_sound {fuel : Nat} {rr : RuneReader} {name : String}
    {rr1 : RuneReader} (h : readAttrTypeF fuel rr = some (name, rr1)) :
    dnTypeOkB name.data = true := by
  rw [readAttrTypeF] at h
  by_cases hd : isDigitC rr.peekRune = true
  · rw [if_pos hd] at h
    cases hloop : readAttrTypeLoop acceptOID fuel rr with
    | none => rw [hloop] at h; exact absurd h (by simp)
    | some p =>
      obtain ⟨v, rr2⟩ := p
      rw [hloop] at h
      simp only [Option.map_some', Option.some.injEq, Prod.mk.injEq] at h
      obtain ⟨h1, h2⟩ := h
      subst h1
      cases fuel with
      | zero => exact Option.noConfusion hloop
      | succ fuel =>
        cases hrd : rr.readRune with
        | none =>
          have hge : ¬ rr.pos < rr.input.length := by
            intro hlt
            rw [RuneReader.readRune, if_pos hlt] at hrd
            exact Option.noConfusion hrd
          have hpk : rr.peekRune = Char.ofNat 0 :=
            List.getD_eq_default rr.input (Char.ofNat 0) (by omega)
          rw [hpk] at hd
          exact absurd hd (by decide)
        | some p2 =>
          obtain ⟨r, rrx⟩ := p2
          have hrlt : rr.pos < rr.input.length := by
            by_contra hge
            rw [RuneReader.readRune, if_neg hge] at hrd
            exact Option.noConfusion hrd
          have hr : r = rr.peekRune := by
            rw [RuneReader.readRune, if_pos hrlt] at hrd
            simp only [Option.some.injEq, Prod.mk.injEq] at hrd
            exact hrd.1.symm
          simp only [readAttrTypeLoop, hrd] at hloop
          have hd' : isDigitC r = true := by rw [hr]; exact hd
          have hne : ¬ r = '=' := by
            intro heq
            rw [heq] at hd'
            exact absurd hd' (by decide)
          rw [if_neg hne, if_pos (by simp [acceptOID, hd'])] at hloop
          cases hrec : readAttrTypeLoop acceptOID fuel rrx with
          | none => rw [hrec] at hloop; exact absurd hloop (by simp)
          | some p3 =>
            obtain ⟨v2, rr3⟩ := p3
            simp only [hrec, Option.some.injEq, Prod.mk.injEq] at hloop
            obtain ⟨hv, hx⟩ := hloop
            subst hv
            have hall := readAttrTypeLoop_all hrec
            have hall' : v2.all (fun x => isDigitC x || x = '.') = true := by
              rw [List.all_eq_true] at hall ⊢
              intro x hx2
              have hx3 := hall x hx2
              simpa [acceptOID] using hx3
            simp [dnTypeOkB, hd', hall']
  · rw [if_neg hd] at h
    by_cases hl : isLetterC rr.peekRune = true
    · rw [if_pos hl] at h
      cases hloop : readAttrTypeLoop acceptShortName fuel rr with
      | none => rw [hloop] at h; exact absurd h (by simp)
      | some p =>
        obtain ⟨v, rr2⟩ := p
        rw [hloop] at h
        simp only [Option.map_some', Option.some.injEq, Prod.mk.injEq] at h
        obtain ⟨h1, h2⟩ := h
        subst h1
        cases fuel with
        | zero => exact Option.noConfusion hloop
        | succ fuel =>
          cases hrd : rr.readRune with
          | none =>
            have hge : ¬ rr.pos < rr.input.length := by
              intro hlt
              rw [RuneReader.readRune, if_pos hlt] at hrd
              exact Option.noConfusion hrd
            have hpk : rr.peekRune = Char.ofNat 0 :=
              List.getD_eq_default rr.input (Char.ofNat 0) (by omega)
            rw [hpk] at hl
            exact absurd hl (by decide)
          | some p2 =>
            obtain ⟨r, rrx⟩ := p2
            have hrlt : rr.pos < rr.input.length := by
              by_contra hge
              rw [RuneReader.readRune, if_neg hge] at hrd
              exact Option.noConfusion hrd
            have hr : r = rr.peekRune := by
              rw [RuneReader.readRune, if_pos hrlt] at hrd
              simp only [Option.some.injEq, Prod.mk.injEq] at hrd
              exact hrd.1.symm
            simp only [readAttrTypeLoop, hrd] at hloop
            have hl' : isLetterC r = true := by rw [hr]; exact hl
            have hne : ¬ r = '=' := by
              intro heq
              rw [heq] at hl'
              exact absurd hl' (by decide)
            rw [if_neg hne, if_pos (by simp [acceptShortName, hl'])] at hloop
            cases hrec : readAttrTypeLoop acceptShortName fuel rrx with
            | none => rw [hrec] at hloop; exact absurd hloop (by simp)
            | some p3 =>
              obtain ⟨v2, rr3⟩ := p3
              simp only [hrec, Option.some.injEq, Prod.mk.injEq] at hloop
              obtain ⟨hv, hx⟩ := hloop
              subst hv
              have hall := readAttrTypeLoop_all hrec
              have hall' : v2.all
                  (fun x => isLetterC x || isDigitC x || x = '-') = true := by
                rw [List.all_eq_true] at hall ⊢
                intro x hx2
                have hx3 := hall x hx2
                rw [acceptShortName, Bool.or_eq_true] at hx3
                rcases hx3 with hx4 | hx4 <;> simp [hx4]
              simp [dnTypeOkB, hl', hall']
    · rw [if_neg hl] at h
      exact absurd h (by simp)

lemma explodeRdnF_ok : ∀ {fuel : Nat} {rr : RuneReader} {attrs : List DnAttr}
    {rr2 : RuneReader}, explodeRdnF fuel rr = some (attrs, rr2) →
    ∀ a ∈ attrs, dnTypeOkB a.name.data = true := by
  intro fuel
  induction fuel with
  | zero => intro rr attrs rr2 h; exact Option.noConfusion h
  | succ fuel ih =>
    intro rr attrs rr2 h
    cases hty : readAttrTypeF fuel rr with
    | none => simp [explodeRdnF, hty] at h
    | some p =>
      obtain ⟨name, rr1⟩ := p
      simp only [explodeRdnF, hty] at h
      cases hval : readAttrValueLoop fuel rr1 with
      | none => rw [hval] at h; exact absurd h (by simp)
      | some p2 =>
        obtain ⟨last, v, rrv⟩ := p2
        simp only [hval] at h
        by_cases hlast : last = Char.ofNat 0 ∨ last = ','
        · rw [if_pos hlast] at h
          simp only [Option.some.injEq, Prod.mk.injEq] at h
          obtain ⟨h1, h2⟩ := h
          subst h1
          intro a ha
          simp only [List.mem_singleton] at ha
          subst ha
          exact readAttrTypeF_sound hty
        · rw [if_neg hlast] at h
          cases hrec : explodeRdnF fuel rrv with
          | none => rw [hrec] at h; exact absurd h (by simp)
          | some p3 =>
            obtain ⟨attrs2, rr3⟩ := p3
            simp only [hrec, Option.some.injEq, Prod.mk.injEq] at h
            obtain ⟨h1, h2⟩ := h
            subst h1
            intro a ha
            simp only [List.mem_cons] at ha
            rcases ha with ha | ha
            · subst ha; exact readAttrTypeF_sound hty
            · exact ih hrec a ha

lemma explodeDNF_ok : ∀ {fuel : Nat} {rr : RuneReader}
    {parts : List (List DnAttr)}, explodeDNF fuel rr = some parts →
    ∀ rdn ∈ parts, ∀ a ∈ rdn, dnTypeOkB a.name.data = true := by
  intro fuel
  induction fuel with
  | zero => intro rr parts h; exact Option.noConfusion h
  | succ fuel ih =>
    intro rr parts h
    by_cases hlen : 0 < rr.len
    · simp only [explodeDNF] at h
      rw [if_pos hlen] at h
      cases hrdn : explodeRdnF fuel rr with
      | none => rw [hrdn] at h; exact absurd h (by simp)
      | some p =>
        obtain ⟨attrs, rr2⟩ := p
        simp only [hrdn] at h
        cases hrec : explodeDNF fuel rr2 with
        | none => rw [hrec] at h; exact absurd h (by simp)
        | some parts2 =>
          simp only [hrec, Option.some.injEq] at h
          subst h
          intro rdn hrn
          simp only [List.mem_cons] at hrn
          rcases hrn with hrn | hrn
          · subst hrn; exact explodeRdnF_ok hrdn
          · exact ih hrec rdn hrn
    · simp only [explodeDNF] at h
      rw [if_neg hlen] at h
      simp only [Option.some.injEq] at h
      subst h
      intro rdn hrn
      exact absurd hrn (List.not_mem_nil rdn)

/-- C9: every attribute type of a DN accepted by `Explode` begins with
a letter and continues with letters, digits and hyphens, or begins with
a digit and continues with digits and dots (the code accepts a subset
of the first alternative: letters and hyphens only); a leading
character that is neither a letter nor a digit is rejected with an
error. -/
theorem C9_dn_attr_types :
    (∀ (fuel : Nat) (s : List Char) (parts : List (List DnAttr)),
      Explode fuel s = some parts →
      ∀ rdn ∈ parts, ∀ a ∈ rdn, dnTypeOkB a.name.data = true) ∧
    (∀ (fuel : Nat) (rr : RuneReader), isDigitC rr.peekRune = false →
      isLetterC rr.peekRune = false → readAttrTypeF fuel rr = none) := by
  constructor
  · intro fuel s parts h
    exact explodeDNF_ok h
  · intro fuel rr hd hl
    rw [readAttrTypeF, if_neg (by simp [hd]), if_neg (by simp [hl])]

/-- C9 witness: `Explode "cn=admin,dc=example"` succeeds and its
attribute types have the claimed shape; `readAttrType` rejects an
attribute type starting with `=`. -/
theorem C9_dn_attr_types_witness :
    Explode 30 "cn=admin,dc=example".data =
      some [[⟨"cn", ["admin"]⟩], [⟨"dc", ["example"]⟩]] ∧
    dnTypeOkB (String.data "cn") = true ∧
    readAttrTypeF 5 ⟨"=x".data, 0⟩ = none :=
  ⟨rfl,
    C9_dn_attr_types.1 30 "cn=admin,dc=example".data
      [[⟨"cn", ["admin"]⟩], [⟨"dc", ["example"]⟩]] rfl
      [⟨"cn", ["admin"]⟩] (by simp) ⟨"cn", ["admin"]⟩ (by simp),
    C9_dn_attr_types.2 5 ⟨"=x".data, 0⟩ (by decide) (by decide)⟩

/-! ## LDIF reader (the `ldif.go` unit)

Bytes are modelled as `Nat`s; names and values are decoded byte-per-rune
(the inputs of interest are ASCII, where this agrees with Go's UTF-8
decoding, and Go's byte-wise string order agrees with the decoded
order).  `readFromURL` performs file/HTTP I/O and is modelled as a
failure; no theorem below exercises it. -/

def sharp : Nat := 35
def carriage : Nat := 13
def newline : Nat := 10
def minus : Nat := 45
def colon : Nat := 58
def langle : Nat := 60
def space : Nat := 32

structure ByteReader where
  input : List Nat
  pos : Nat
deriving Repr, DecidableEq

def ByteReader.readByte (br : ByteReader) : Option (Nat × ByteReader) :=
  if br.pos < br.input.length then
    some (br.input.getD br.pos 0, ⟨br.input, br.pos + 1⟩)
  else none

def ByteReader.unread (br : ByteReader) : ByteReader := ⟨br.input, br.pos - 1⟩

/-- `bufio.Reader.ReadString(delim)`: the bytes up to and including the
delimiter, a flag telling whether the delimiter was found (`err == nil`
in Go), and the advanced reader. -/
def ByteReader.readString (delim : Nat) (br : ByteReader) :
    List Nat × Bool × ByteReader :=
  let rest := br.input.drop br.pos
  match rest.findIdx? (· = delim) with
  | some i => (rest.take (i + 1), true, ⟨br.input, br.pos + i + 1⟩)
  | none => (rest, false, ⟨br.input, br.input.length⟩)

def bytesToString (bs : List Nat) : String := ⟨bs.map Char.ofNat⟩

def isSpaceB (b : Nat) : Bool :=
  b = 9 || b = 10 || b = 11 || b = 12 || b = 13 || b = 32

/-- `strings.TrimSpace` on ASCII content. -/
def trimSpaceB (bs : List Nat) : List Nat :=
  ((bs.dropWhile isSpaceB).reverse.dropWhile isSpaceB).reverse

/-- `strings.TrimSuffix(str, "\r\n")`: note a lone `"\n"` is kept. -/
def trimSuffixCRLF (bs : List Nat) : List Nat :=
  if 2 ≤ bs.length ∧ bs.drop (bs.length - 2) = [carriage, newline] then
    bs.take (bs.length - 2)
  else bs

/-- The continuation loop of `readLines`: lines starting with a space
continue the value. -/
def readLinesLoop : Nat → ByteReader → List (List Nat) × ByteReader
  | 0, br => ([], br)
  | fuel + 1, br =>
    match br.readByte with
    | none => ([], br)
    | some (b, br1) =>
      if b = space then
        let s := br1.readString newline
        let r := readLinesLoop fuel s.2.2
        (trimSuffixCRLF s.1 :: r.1, r.2)
      else ([], br1.unread)

/-- `readLines` (ldif.go). -/
def readLines (fuel : Nat) (br : ByteReader) : List (List Nat) × ByteReader :=
  let s := br.readString newline
  let r := readLinesLoop fuel s.2.2
  (trimSpaceB s.1 :: r.1, r.2)

/-- `readDescriptor` (ldif.go): read up to the colon; a missing colon is
an error. -/
def readDescriptor (br : ByteReader) : Option (String × ByteReader) :=
  let s := br.readString colon
  if s.2.1 then some (bytesToString s.1.dropLast, s.2.2) else none

/-- `readValue` (ldif.go); the `<` branch calls `readFromURL`. -/
def readValue (fuel : Nat) (br : ByteReader) : Option (String × ByteReader) :=
  match br.readByte with
  | none => none
  | some (b, br1) =>
    if b = colon then
      let r := readLines fuel br1
      some (bytesToString r.1.join, r.2)
    else if b = langle then none
    else
      let r := readLines fuel br1.unread
      some (bytesToString r.1.join, r.2)

/-- `readAttribute` (ldif.go). -/
def readAttribute (fuel : Nat) (br : ByteReader) :
    Option (String × String × ByteReader) :=
  match br.readByte with
  | none => none
  | some (b, br1) =>
    if b = minus then
      let s := br1.readString newline
      if s.2.1 then some ("", "", s.2.2) else none
    else
      match readDescriptor br1.unread with
      | none => none
      | some (name, br2) =>
        match readValue fuel br2 with
        | none => none
        | some (value, br3) => some (name, value, br3)

/-- `skipBlanks` (ldif.go).  The loop-local `b` shadows the parameter
only after its declaration, so the carriage test at the top of every
iteration reads the parameter. -/
def skipBlanks (bParam : Nat) : Nat → ByteReader → ByteReader
  | 0, br => br
  | fuel + 1, br =>
    let br1 := if bParam = carriage then
        match br.readByte with
        | some (_, b2) => b2
        | none => br
      else br
    match br1.readByte with
    | none => br1
    | some (b2, br2) =>
      if b2 ≠ carriage ∧ b2 ≠ newline then br2.unread
      else skipBlanks bParam fuel br2

def skipCommentsLoop : Nat → ByteReader → ByteReader
  | 0, br => br
  | fuel + 1, br =>
    match br.readByte with
    | none => br
    | some (b, br1) =>
      if b ≠ sharp then br1.unread
      else skipCommentsLoop fuel (br1.readString newline).2.2

/-- `skipComments` (ldif.go). -/
def skipComments (fuel : Nat) (br : ByteReader) : ByteReader :=
  skipCommentsLoop fuel (br.readString newline).2.2

/-- The outcome of a block-level routine: `ok` (the loop hit the end of
input and returned `nil`), `eob` (the `end of block` sentinel) or a real
error — fuel exhaustion is also `fail`. -/
inductive ExecRes (σ : Type) where
  | ok (st : σ) (br : ByteReader)
  | eob (st : σ) (br : ByteReader)
  | fail
deriving Repr, DecidableEq

/-- `readBlock` (ldif.go): a `#` line skips comments, a blank line ends
the block, a `-` line ends the block when followed by a line break, and
anything else is handed back to `exec`; an `eob` from `exec` is
swallowed and the loop continues. -/
def readBlockF {σ : Type} (exec : σ → ByteReader → ExecRes σ) :
    Nat → σ → ByteReader → ExecRes σ
  | 0, _, _ => .fail
  | fuel + 1, st, br =>
    match br.readByte with
    | none => .ok st br
    | some (b, br1) =>
      if b = sharp then readBlockF exec fuel st (skipComments fuel br1)
      else if b = carriage ∨ b = newline then .eob st (skipBlanks b fuel br1)
      else if b = minus then
        match br1.readByte with
        | some (b2, br2) =>
          if b2 = carriage ∨ b2 = newline then
            .eob st (br2.readString newline).2.2
          else .fail
        | none => .fail
      else
        match exec st br1.unread with
        | .ok st2 br2 => readBlockF exec fuel st2 br2
        | .eob st2 br2 => readBlockF exec fuel st2 br2
        | .fail => .fail

def ModAdd : Nat := 0
def ModDelete : Nat := 1
def ModReplace : Nat := 2

/-- `PartialAttribute` (embedded `Attribute` flattened). -/
structure PartialAttr where
  mod : Nat
  name : String
  values : List String
deriving Repr, DecidableEq

def dfltPA : PartialAttr := ⟨0, "", []⟩

/-- `createPartialWithValue` via `createAttribute`: an empty value
yields an empty value list. -/
def createPartialWithValue (name value : String) : PartialAttr :=
  ⟨0, name, if value = "" then [] else [value]⟩

structure Change where
  name : String
  attrs : List PartialAttr
deriving Repr, DecidableEq

/-- Go's byte-wise string order `<`/`<=` on the decoded rune lists
(UTF-8 encoding preserves code-point order, so byte-wise and rune-wise
comparison agree). -/
def charListLt : List Char → List Char → Bool
  | [], [] => false
  | [], _ :: _ => true
  | _ :: _, [] => false
  | a :: as, b :: bs =>
    a.toNat < b.toNat || (a.toNat = b.toNat && charListLt as bs)

def charListLe : List Char → List Char → Bool
  | [], _ => true
  | _ :: _, [] => false
  | a :: as, b :: bs =>
    a.toNat < b.toNat || (a.toNat = b.toNat && charListLe as bs)

/-- `sort.Search` from the Go standard library: binary search for the
least index in `[0, n]` at which `f` holds. -/
def sortSearchLoop (f : Nat → Bool) : Nat → Nat → Nat → Nat
  | 0, i, _ => i
  | fuel + 1, i, j =>
    if i < j then
      if f ((i + j) / 2) then sortSearchLoop f fuel i ((i + j) / 2)
      else sortSearchLoop f fuel ((i + j) / 2 + 1) j
    else i

def sortSearch (n : Nat) (f : Nat → Bool) : Nat := sortSearchLoop f n 0 n

/-- The tail of `parseAdd`'s callback given the `sort.Search` result
`x`: merge into the attribute at `x` when the names match, otherwise
splice the fresh attribute in at `x`. -/
def insertAddAt (attrs : List PartialAttr) (name value : String) (x : Nat) :
    List PartialAttr :=
  if x < attrs.length ∧ (attrs.getD x dfltPA).name = name then
    attrs.set x ⟨(attrs.getD x dfltPA).mod, (attrs.getD x dfltPA).name,
      (attrs.getD x dfltPA).values ++ [value]⟩
  else if x < attrs.length then
    attrs.take x ++ createPartialWithValue name value :: attrs.drop x
  else
    attrs ++ [createPartialWithValue name value]

/-- The body of `parseAdd`'s callback after `readAttribute`: a binary
search against the descending-ordered attribute list (`cg.Attrs[i].Name
<= name`, Go's byte-wise string order), then merge or insert. -/
def insertAdd (attrs : List PartialAttr) (name value : String) :
    List PartialAttr :=
  insertAddAt attrs name value (sortSearch attrs.length
    (fun i => charListLe (attrs.getD i dfltPA).name.data name.data))

/-- `parseAdd` (ldif.go). -/
def parseAdd (fuel : Nat) (cg : Change) (br : ByteReader) : ExecRes Change :=
  readBlockF (fun cg br =>
    match readAttribute fuel br with
    | none => .fail
    | some (name, value, br1) =>
      .ok ⟨cg.name, insertAdd cg.attrs name value⟩ br1) fuel cg br

/-- `parseDelete` (ldif.go). -/
def parseDelete (fuel : Nat) (cg : Change) (br : ByteReader) : ExecRes Change :=
  match br.readByte with
  | none => .ok cg br
  | some (b, br1) =>
    if b = carriage ∨ b = newline then .ok cg (skipBlanks b fuel br1)
    else .fail

/-- `parseModify` (ldif.go). -/
def parseModify (fuel : Nat) (cg : Change) (br : ByteReader) : ExecRes Change :=
  readBlockF (fun cg br =>
    match readAttribute fuel br with
    | none => .fail
    | some (name, value, br1) =>
      let m : Option Nat :=
        if name = "add" then some ModAdd
        else if name = "delete" then some ModDelete
        else if name = "replace" then some ModReplace
        else none
      match m with
      | none => .fail
      | some mod =>
        let pa : PartialAttr := ⟨mod, value, []⟩
        match readBlockF (fun (pa : PartialAttr) br =>
            match readAttribute fuel br with
            | none => .fail
            | some (name2, value2, br2) =>
              if name2 = pa.name then
                .ok ⟨pa.mod, pa.name, pa.values ++ [value2]⟩ br2
              else .fail) fuel pa br1 with
        | .ok pa2 br2 => .ok ⟨cg.name, cg.attrs ++ [pa2]⟩ br2
        | .eob pa2 br2 => .ok ⟨cg.name, cg.attrs ++ [pa2]⟩ br2
        | .fail => .fail) fuel cg br

def ExecRes.withAct (act : Nat) : ExecRes Change → ExecRes (Nat × Change)
  | .ok c b => .ok (act, c) b
  | .eob c b => .eob (act, c) b
  | .fail => .fail

/-- `parseChange` (ldif.go). -/
def parseChange (fuel : Nat) (cg : Change) (br : ByteReader) :
    ExecRes (Nat × Change) :=
  match readAttribute fuel br with
  | none => .fail
  | some (name, value, br1) =>
    if name = "dn" then
      let cg1 : Change := ⟨value, cg.attrs⟩
      match readAttribute fuel br1 with
      | none => .fail
      | some (name2, value2, br2) =>
        if name2 = "changetype" then
          if value2 = "add" then (parseAdd fuel cg1 br2).withAct ModAdd
          else if value2 = "delete" then (parseDelete fuel cg1 br2).withAct ModDelete
          else if value2 = "modify" then (parseModify fuel cg1 br2).withAct ModReplace
          else .fail
        else
          let cg2 : Change :=
            ⟨cg1.name, cg1.attrs ++ [createPartialWithValue name2 value2]⟩
          (parseAdd fuel cg2 br2).withAct ModAdd
    else .fail

/-- One LDIF change record read from the start of the byte stream. -/
def readLdifChange (fuel : Nat) (bs : List Nat) : ExecRes (Nat × Change) :=
  parseChange fuel ⟨"", []⟩ ⟨bs, 0⟩

def strBytes (s : String) : List Nat := s.data.map (·.toNat)

lemma charListLe_refl : ∀ l : List Char, charListLe l l = true := by
  intro l
  induction l with
  | nil => rfl
  | cons x xs ih => simp [charListLe, ih]

lemma charListLe_false_lt : ∀ a b : List Char, charListLe a b = false →
    charListLt b a = true := by
  intro a
  induction a with
  | nil => intro b h; rw [charListLe] at h; exact Bool.noConfusion h
  | cons x xs ih =>
    intro b h
    cases b with
    | nil => rfl
    | cons y ys =>
      rw [charListLe, Bool.or_eq_false_iff] at h
      obtain ⟨h1, h2⟩ := h
      rw [decide_eq_false_iff_not] at h1
      rw [Bool.and_eq_false_iff] at h2
      rw [charListLt]
      rcases h2 with h2 | h2
      · rw [decide_eq_false_iff_not] at h2
        simp [show y.toNat < x.toNat from by omega]
      · by_cases he : x.toNat = y.toNat
        · simp [show y.toNat = x.toNat from he.symm, ih ys h2]
        · simp [show y.toNat < x.toNat from by omega]

lemma charListLe_ne_lt : ∀ a b : List Char, charListLe a b = true → a ≠ b →
    charListLt a b = true := by
  intro a
  induction a with
  | nil =>
    intro b h hne
    cases b with
    | nil => exact absurd rfl hne
    | cons y ys => rfl
  | cons x xs ih =>
    intro b h hne
    cases b with
    | nil => rw [charListLe] at h; exact Bool.noConfusion h
    | cons y ys =>
      rw [charListLe, Bool.or_eq_true] at h
      rw [charListLt]
      rcases h with h | h
      · rw [h]
        rw [Bool.true_or]
      · rw [Bool.and_eq_true] at h
        obtain ⟨h1, h2⟩ := h
        have h1' : x.toNat = y.toNat := by simpa using h1
        have hxy : x = y := Char.ext (UInt32.ext h1')
        subst hxy
        have hne2 : xs ≠ ys := by
          intro hEq
          exact hne (by rw [hEq])
        simp [ih ys h2 hne2]

lemma charListLt_asymm : ∀ a b : List Char, charListLt a b = true →
    charListLe b a = false := by
  intro a
  induction a with
  | nil =>
    intro b h
    cases b with
    | nil => exact Bool.noConfusion h
    | cons y ys => rfl
  | cons x xs ih =>
    intro b h
    cases b with
    | nil => rw [charListLt] at h; exact Bool.noConfusion h
    | cons y ys =>
      rw [charListLt, Bool.or_eq_true] at h
      rw [charListLe]
      rcases h with h | h
      · have h' : x.toNat < y.toNat := by simpa using h
        simp [show ¬ y.toNat < x.toNat from by omega,
          show ¬ y.toNat = x.toNat from by omega]
      · rw [Bool.and_eq_true] at h
        obtain ⟨h1, h2⟩ := h
        have h1' : x.toNat = y.toNat := by simpa using h1
        simp [show ¬ y.toNat < x.toNat from by omega, ih ys h2]

lemma charListLt_le_trans : ∀ a b c : List Char, charListLt a b = true →
    charListLe b c = true → charListLe a c = true := by
  intro a
  induction a with
  | nil => intro b c _ _; rfl
  | cons x xs ih =>
    intro b c h1 h2
    cases b with
    | nil => rw [charListLt] at h1; exact Bool.noConfusion h1
    | cons y ys =>
      cases c with
      | nil => rw [charListLe] at h2; exact Bool.noConfusion h2
      | cons z zs =>
        rw [charListLt, Bool.or_eq_true] at h1
        rw [charListLe, Bool.or_eq_true] at h2
        rw [charListLe]
        rcases h1 with h1 | h1
        · have ha : x.toNat < y.toNat := by simpa using h1
          rcases h2 with h2 | h2
          · have hb : y.toNat < z.toNat := by simpa using h2
            simp [show x.toNat < z.toNat from by omega]
          · rw [Bool.and_eq_true] at h2
            have hb : y.toNat = z.toNat := by simpa using h2.1
            simp [show x.toNat < z.toNat from by omega]
        · rw [Bool.and_eq_true] at h1
          obtain ⟨h1a, h1b⟩ := h1
          have ha : x.toNat = y.toNat := by simpa using h1a
          rcases h2 with h2 | h2
          · have hb : y.toNat < z.toNat := by simpa using h2
            simp [show x.toNat < z.toNat from by omega]
          · rw [Bool.and_eq_true] at h2
            obtain ⟨h2a, h2b⟩ := h2
            have hb : y.toNat = z.toNat := by simpa using h2a
            simp [show x.toNat = z.toNat from by omega, ih ys zs h1b h2b]

/-- `sort.Search` correctness: on a predicate monotone below `N`, the
loop returns the least index at which the predicate holds. -/
lemma sortSearchLoop_spec (f : Nat → Bool) (N : Nat)
    (hmono : ∀ k l, k ≤ l → l < N → f k = true → f l = true) :
    ∀ (fuel i j : Nat), j - i ≤ fuel → i ≤ j → j ≤ N →
      i ≤ sortSearchLoop f fuel i j ∧ sortSearchLoop f fuel i j ≤ j ∧
      (∀ k, i ≤ k → k < sortSearchLoop f fuel i j → f k = false) ∧
      (∀ k, sortSearchLoop f fuel i j ≤ k → k < j → f k = true) := by
  intro fuel
  induction fuel with
  | zero =>
    intro i j hf hij hjN
    simp only [sortSearchLoop]
    exact ⟨le_refl i, hij, fun k h1 h2 => by omega, fun k h1 h2 => by omega⟩
  | succ fuel ih =>
    intro i j hf hij hjN
    by_cases hlt : i < j
    · simp only [sortSearchLoop]
      rw [if_pos hlt]
      by_cases hfh : f ((i + j) / 2) = true
      · rw [if_pos hfh]
        obtain ⟨h1, h2, h3, h4⟩ := ih i ((i + j) / 2) (by omega) (by omega)
          (by omega)
        refine ⟨h1, by omega, h3, ?_⟩
        intro k hk1 hk2
        by_cases hk3 : k < (i + j) / 2
        · exact h4 k hk1 hk3
        · exact hmono ((i + j) / 2) k (by omega) (by omega) hfh
      · rw [if_neg hfh]
        obtain ⟨h1, h2, h3, h4⟩ := ih ((i + j) / 2 + 1) j (by omega) (by omega) hjN
        refine ⟨by omega, h2, ?_, h4⟩
        intro k hk1 hk2
        by_cases hk3 : (i + j) / 2 + 1 ≤ k
        · exact h3 k hk3 hk2
        · cases hfk : f k with
          | false => rfl
          | true =>
            exact absurd (hmono k ((i + j) / 2) (by omega) (by omega) hfk) hfh
    · simp only [sortSearchLoop]
      rw [if_neg hlt]
      exact ⟨le_refl i, hij, fun k h1 h2 => by omega, fun k h1 h2 => by omega⟩

lemma sortSearch_spec (n : Nat) (f : Nat → Bool)
    (hmono : ∀ k l, k ≤ l → l < n → f k = true → f l = true) :
    sortSearch n f ≤ n ∧
    (∀ k, k < sortSearch n f → f k = false) ∧
    (∀ k, sortSearch n f ≤ k → k < n → f k = true) := by
  obtain ⟨h1, h2, h3, h4⟩ := sortSearchLoop_spec f n hmono n 0 n (by omega)
    (by omega) (le_refl n)
  exact ⟨h2, fun k hk => h3 k (Nat.zero_le k) hk, h4⟩

/-- The descending name order `parseAdd` maintains. -/
def paDescend (a b : PartialAttr) : Prop :=
  charListLt b.name.data a.name.data = true

instance (a b : PartialAttr) : Decidable (paDescend a b) := by
  unfold paDescend
  infer_instance

/-- The search predicate of `parseAdd` is monotone over a
descending-ordered attribute list. -/
lemma insertAdd_pred_mono {attrs : List PartialAttr} {name : String}
    (hpw : List.Pairwise paDescend attrs) :
    ∀ k l, k ≤ l → l < attrs.length →
      charListLe (attrs.getD k dfltPA).name.data name.data = true →
      charListLe (attrs.getD l dfltPA).name.data name.data = true := by
  intro k l hkl hlN hfk
  by_cases hkl2 : k = l
  · subst hkl2; exact hfk
  · have hk : k < attrs.length := by omega
    have hR := (List.pairwise_iff_getElem.mp hpw) k l hk hlN (by omega)
    rw [List.getD_eq_getElem attrs dfltPA hlN]
    rw [List.getD_eq_getElem attrs dfltPA hk] at hfk
    exact charListLt_le_trans _ _ _ hR hfk

/-- C8, amended.  `parseAdd` does merge repeated attribute names into a
single attribute accumulating the values in line order, but the
attribute list is NOT kept in insertion order: it is kept sorted in
strictly descending byte-wise name order, and a fresh name is spliced
in at its binary-search position. -/
theorem C8_ldif_add_amended :
    (∀ (attrs : List PartialAttr) (name value : String) (i : Nat),
      List.Pairwise paDescend attrs →
      (hiN : i < attrs.length) → (attrs.getD i dfltPA).name = name →
      insertAdd attrs name value =
        attrs.set i ⟨(attrs.getD i dfltPA).mod, (attrs.getD i dfltPA).name,
          (attrs.getD i dfltPA).values ++ [value]⟩) ∧
    (∀ (attrs : List PartialAttr) (name value : String),
      List.Pairwise paDescend attrs →
      (∀ a ∈ attrs, a.name ≠ name) →
      insertAdd attrs name value =
        attrs.take (sortSearch attrs.length
            (fun k => charListLe (attrs.getD k dfltPA).name.data name.data)) ++
          createPartialWithValue name value ::
          attrs.drop (sortSearch attrs.length
            (fun k => charListLe (attrs.getD k dfltPA).name.data name.data)) ∧
      List.Pairwise paDescend (insertAdd attrs name value) ∧
      List.Perm ((insertAdd attrs name value).map PartialAttr.name)
        (name :: attrs.map PartialAttr.name)) := by
  constructor
  · intro attrs name value i hpw hiN hnameEq
    obtain ⟨hle, hfalse, htrue⟩ := sortSearch_spec attrs.length
      (fun k => charListLe (attrs.getD k dfltPA).name.data name.data)
      (insertAdd_pred_mono hpw)
    set x := sortSearch attrs.length
      (fun k => charListLe (attrs.getD k dfltPA).name.data name.data) with hxdef
    have hfi : charListLe (attrs.getD i dfltPA).name.data name.data = true := by
      rw [hnameEq]
      exact charListLe_refl _
    have hxlei : x ≤ i := by
      by_contra hgt
      have h1 := hfalse i (by omega)
      rw [hfi] at h1
      exact Bool.noConfusion h1
    have hige : i ≤ x := by
      by_contra hlt2
      have hx : x < attrs.length := by omega
      have hftrue := htrue x (le_refl x) hx
      have hR := (List.pairwise_iff_getElem.mp hpw) x i hx hiN (by omega)
      have hnameEq' : (attrs[i]).name = name := by
        rw [← List.getD_eq_getElem attrs dfltPA hiN]
        exact hnameEq
      have hflt : charListLe (attrs.getD x dfltPA).name.data name.data = false := by
        rw [List.getD_eq_getElem attrs dfltPA hx]
        apply charListLt_asymm
        have hR' : charListLt (attrs[i]).name.data
            (attrs[x]).name.data = true := hR
        rw [hnameEq'] at hR'
        exact hR'
      rw [hflt] at hftrue
      exact Bool.noConfusion hftrue
    have hxi : x = i := le_antisymm hxlei hige
    rw [insertAdd, ← hxdef, hxi, insertAddAt, if_pos ⟨hiN, hnameEq⟩]
  · intro attrs name value hpw hnotin
    obtain ⟨hle, hfalse, htrue⟩ := sortSearch_spec attrs.length
      (fun k => charListLe (attrs.getD k dfltPA).name.data name.data)
      (insertAdd_pred_mono hpw)
    set x := sortSearch attrs.length
      (fun k => charListLe (attrs.getD k dfltPA).name.data name.data) with hxdef
    have hnameNe : ∀ k (hk : k < attrs.length), (attrs[k]).name ≠ name :=
      fun k hk => hnotin _ (List.getElem_mem hk)
    have hform : insertAdd attrs name value =
        attrs.take x ++ createPartialWithValue name value :: attrs.drop x := by
      rw [insertAdd, ← hxdef]
      by_cases hxN : x < attrs.length
      · rw [insertAddAt,
          if_neg (fun hc => hnameNe x hxN
            ((List.getD_eq_getElem attrs dfltPA hxN) ▸ hc.2)),
          if_pos hxN]
      · rw [insertAddAt, if_neg (fun hc => hxN hc.1), if_neg hxN,
          List.take_all_of_le (by omega), List.drop_eq_nil_of_le (by omega)]
    have hgtTake : ∀ k (hk : k < attrs.length), k < x →
        charListLt name.data (attrs[k]).name.data = true := by
      intro k hk hkx
      have hfk := hfalse k hkx
      have hle2 : charListLe (attrs[k]).name.data name.data = false := by
        rw [← List.getD_eq_getElem attrs dfltPA hk]
        exact hfk
      exact charListLe_false_lt _ _ hle2
    have hltDrop : ∀ k (hk : k < attrs.length), x ≤ k →
        charListLt (attrs[k]).name.data name.data = true := by
      intro k hk hxk
      have hft := htrue k hxk hk
      have hle2 : charListLe (attrs[k]).name.data name.data = true := by
        rw [← List.getD_eq_getElem attrs dfltPA hk]
        exact hft
      refine charListLe_ne_lt _ _ hle2 ?_
      intro hd
      exact hnameNe k hk (String.ext hd)
    have hpw2 : List.Pairwise paDescend (insertAdd attrs name value) := by
      rw [hform, List.pairwise_append]
      refine ⟨List.Pairwise.sublist (List.take_sublist x attrs) hpw, ?_, ?_⟩
      · rw [List.pairwise_cons]
        constructor
        · intro b hb
          rw [List.mem_iff_getElem] at hb
          obtain ⟨m, hm, hbm⟩ := hb
          have hxm : x + m < attrs.length := by
            rw [List.length_drop] at hm
            omega
          have hbe : b = attrs[x + m] := by
            rw [← hbm, List.getElem_drop]
          rw [hbe]
          show charListLt (attrs[x + m]).name.data
            (createPartialWithValue name value).name.data = true
          exact hltDrop (x + m) hxm (by omega)
        · exact List.Pairwise.sublist (List.drop_sublist x attrs) hpw
      · intro a ha b hb
        rw [List.mem_iff_getElem] at ha
        obtain ⟨k, hk, hak⟩ := ha
        have hkx : k < x := by
          rw [List.length_take] at hk
          omega
        have hkN : k < attrs.length := by
          rw [List.length_take] at hk
          omega
        have hak' : a = attrs[k] := by
          rw [← hak, List.getElem_take]
        rcases List.mem_cons.mp hb with hb | hb
        · rw [hak', hb]
          show charListLt (createPartialWithValue name value).name.data
            (attrs[k]).name.data = true
          exact hgtTake k hkN hkx
        · rw [List.mem_iff_getElem] at hb
          obtain ⟨m, hm, hbm⟩ := hb
          have hxm : x + m < attrs.length := by
            rw [List.length_drop] at hm
            omega
          have hbe : b = attrs[x + m] := by
            rw [← hbm, List.getElem_drop]
          rw [hak', hbe]
          exact (List.pairwise_iff_getElem.mp hpw) k (x + m) hkN hxm (by omega)
    have hperm : List.Perm ((insertAdd attrs name value).map PartialAttr.name)
        (name :: attrs.map PartialAttr.name) := by
      rw [hform, List.map_append, List.map_cons]
      have h2 : (attrs.take x).map PartialAttr.name ++
          (attrs.drop x).map PartialAttr.name = attrs.map PartialAttr.name := by
        rw [← List.map_append, List.take_append_drop]
      have h3 := @List.perm_middle _ (createPartialWithValue name value).name
        ((attrs.take x).map PartialAttr.name)
        ((attrs.drop x).map PartialAttr.name)
      rw [h2] at h3
      exact h3
    exact ⟨hform, hpw2, hperm⟩

/-- C8 witness: into the descending list `[b, a]`, a repeated `a` is
merged value-wise and a fresh `c` is spliced in at the front, keeping
the descending order. -/
theorem C8_ldif_add_amended_witness :
    insertAdd [⟨0, "b", ["1"]⟩, ⟨0, "a", ["2"]⟩] "a" "3" =
      [⟨0, "b", ["1"]⟩, ⟨0, "a", ["2", "3"]⟩] ∧
    insertAdd [⟨0, "b", ["1"]⟩, ⟨0, "a", ["2"]⟩] "c" "4" =
      [⟨0, "c", ["4"]⟩, ⟨0, "b", ["1"]⟩, ⟨0, "a", ["2"]⟩] := by
  constructor
  · rw [C8_ldif_add_amended.1 [⟨0, "b", ["1"]⟩, ⟨0, "a", ["2"]⟩] "a" "3" 1
      (by decide) (by decide) (by decide)]
    rfl
  · rw [(C8_ldif_add_amended.2 [⟨0, "b", ["1"]⟩, ⟨0, "a", ["2"]⟩] "c" "4"
      (by decide) (by decide)).1]
    rfl

/-- C8 counterexample: the LDIF record `dn: x` / `a: 1` / `b: 2` is
read into the attribute list `[b, a]` — descending name order — while
the insertion order of first occurrences is `[a, b]`. -/
theorem C8_ldif_insertion_order_counterexample :
    readLdifChange 60 (strBytes "dn: x\na: 1\nb: 2\n") =
      .ok (ModAdd, ⟨"x", [⟨0, "b", ["2"]⟩, ⟨0, "a", ["1"]⟩]⟩)
        ⟨strBytes "dn: x\na: 1\nb: 2\n", 16⟩ ∧
    [(⟨0, "b", ["2"]⟩ : PartialAttr), ⟨0, "a", ["1"]⟩].map PartialAttr.name ≠
      ["a", "b"] := by
  exact ⟨by decide, by decide⟩

end LdapSpec
